import Mathlib

set_option maxRecDepth 1000000

/-!
# Blockchain voting system — a shallow embedding

This file embeds the core of a small blockchain-based voting program
(`Vote`, `Block`, `Blockchain`, `VoterManager`, `VotingSystem`) as
executable Lean definitions and proves the specification's claims about
them.  Mutable objects become explicit state passing; Python exceptions
that the code catches become `Option`/tagged results; `time.time()`
becomes an explicit positive-integer timestamp argument (the code also
accepts integer timestamps; float-specific behaviour is out of scope);
Python dicts used as serialization documents become structures.
-/

/-! ## Characters and low-level encoders

The program hashes blocks by JSON-encoding them with
`json.dumps(..., sort_keys=True, separators=(',', ':'))` (UTF-8, with
`ensure_ascii=True` escaping) and applying SHA-256.  We model that
encoding over `List Char`; its output is pure ASCII, so UTF-8 encoding
is the identity on code points. -/

/-- The double-quote character. -/
abbrev quoteC : Char := Char.ofNat 34

/-- The backslash character. -/
abbrev backslashC : Char := Char.ofNat 92

/-- The opening curly bracket. -/
abbrev lbraceC : Char := Char.ofNat 123

/-- The closing curly bracket. -/
abbrev rbraceC : Char := Char.ofNat 125

/-- The characters of a string literal. -/
def strL (s : String) : List Char := s.data

/-- The decimal digit character for `n < 10`. -/
def digitC (n : Nat) : Char := Char.ofNat (48 + n)

/-- The lowercase hexadecimal digit character for `n < 16`. -/
def hexC (n : Nat) : Char := if n < 10 then Char.ofNat (48 + n) else Char.ofNat (87 + n)

/-- Decimal digits of `n`, most significant first, with explicit fuel so the
definition is structural (and hence reduces in the kernel). -/
def decDigits : Nat → Nat → List Char
  | 0, _ => []
  | fuel + 1, n => if n < 10 then [digitC n] else decDigits fuel (n / 10) ++ [digitC (n % 10)]

/-- Python's decimal rendering of a non-negative integer (`json.dumps` of an
`int`). -/
def natEnc (n : Nat) : List Char := decDigits (n + 1) n

/-- Four lowercase hex digits, as in Python's `\uXXXX` escapes. -/
def hex4 (n : Nat) : List Char :=
  [hexC (n / 4096 % 16), hexC (n / 256 % 16), hexC (n / 16 % 16), hexC (n % 16)]

/-- `json.dumps` escaping of one character (`ensure_ascii=True`): quote and
backslash get two-character escapes, the five short control escapes apply,
other printable ASCII is literal, everything else becomes `\uXXXX`
(a surrogate pair for astral code points). -/
def escChar (c : Char) : List Char :=
  if c = quoteC then [backslashC, quoteC]
  else if c = backslashC then [backslashC, backslashC]
  else if c = Char.ofNat 10 then [backslashC, 'n']
  else if c = Char.ofNat 13 then [backslashC, 'r']
  else if c = Char.ofNat 9 then [backslashC, 't']
  else if c = Char.ofNat 8 then [backslashC, 'b']
  else if c = Char.ofNat 12 then [backslashC, 'f']
  else if 32 ≤ c.toNat ∧ c.toNat ≤ 126 then [c]
  else if c.toNat < 65536 then backslashC :: 'u' :: hex4 c.toNat
  else
    backslashC :: 'u' :: hex4 (55296 + (c.toNat - 65536) / 1024) ++
      backslashC :: 'u' :: hex4 (56320 + (c.toNat - 65536) % 1024)

/-- Escape every character of a string body. -/
def escList : List Char → List Char
  | [] => []
  | c :: cs => escChar c ++ escList cs

/-- `json.dumps` of a string: quoted, body escaped. -/
def strEnc (s : String) : List Char := quoteC :: (escList s.data ++ [quoteC])

/-! ## SHA-256

A direct executable model of `hashlib.sha256(...).hexdigest()` on a byte
list, written with structural recursion only so the kernel can evaluate
it. -/

/-- Truncate to 32 bits. -/
def u32 (n : Nat) : Nat := n % 4294967296

/-- Rotate a 32-bit word right by `n`. -/
def rotr (x n : Nat) : Nat := u32 (Nat.lor (x >>> n) (x <<< (32 - n)))

/-- SHA-256 big sigma 0. -/
def bsig0 (x : Nat) : Nat := rotr x 2 ^^^ rotr x 13 ^^^ rotr x 22

/-- SHA-256 big sigma 1. -/
def bsig1 (x : Nat) : Nat := rotr x 6 ^^^ rotr x 11 ^^^ rotr x 25

/-- SHA-256 small sigma 0. -/
def ssig0 (x : Nat) : Nat := rotr x 7 ^^^ rotr x 18 ^^^ (x >>> 3)

/-- SHA-256 small sigma 1. -/
def ssig1 (x : Nat) : Nat := rotr x 17 ^^^ rotr x 19 ^^^ (x >>> 10)

/-- SHA-256 choice function. -/
def chF (x y z : Nat) : Nat := (x &&& y) ^^^ ((x ^^^ 4294967295) &&& z)

/-- SHA-256 majority function. -/
def majF (x y z : Nat) : Nat := (x &&& y) ^^^ (x &&& z) ^^^ (y &&& z)

/-- The 64 SHA-256 round constants. -/
def shaK : List Nat :=
  [1116352408, 1899447441, 3049323471, 3921009573, 961987163, 1508970993,
   2453635748, 2870763221, 3624381080, 310598401, 607225278, 1426881987,
   1925078388, 2162078206, 2614888103, 3248222580, 3835390401, 4022224774,
   264347078, 604807628, 770255983, 1249150122, 1555081692, 1996064986,
   2554220882, 2821834349, 2952996808, 3210313671, 3336571891, 3584528711,
   113926993, 338241895, 666307205, 773529912, 1294757372, 1396182291,
   1695183700, 1986661051, 2177026350, 2456956037, 2730485921, 2820302411,
   3259730800, 3345764771, 3516065817, 3600352804, 4094571909, 275423344,
   430227734, 506948616, 659060556, 883997877, 958139571, 1322822218,
   1537002063, 1747873779, 1955562222, 2024104815, 2227730452, 2361852424,
   2428436474, 2756734187, 3204031479, 3329325298]

/-- The eight SHA-256 working registers. -/
structure Hs where
  a : Nat
  b : Nat
  c : Nat
  d : Nat
  e : Nat
  f : Nat
  g : Nat
  h : Nat

/-- The SHA-256 initial hash value. -/
def shaH0 : Hs :=
  ⟨1779033703, 3144134277, 1013904242, 2773480762, 1359893119, 2600822924, 528734635, 1541459225⟩

/-- SHA-256 padding: append `0x80`, zeros to 56 mod 64 bytes, then the bit
length as eight big-endian bytes. -/
def padMsg (msg : List Nat) : List Nat :=
  let len := msg.length
  let bitLen := 8 * len
  let zeros := (119 - len % 64) % 64
  msg ++ 0x80 :: List.replicate zeros 0 ++
    [bitLen / 2 ^ 56 % 256, bitLen / 2 ^ 48 % 256, bitLen / 2 ^ 40 % 256, bitLen / 2 ^ 32 % 256,
     bitLen / 2 ^ 24 % 256, bitLen / 2 ^ 16 % 256, bitLen / 2 ^ 8 % 256, bitLen % 256]

/-- Big-endian 32-bit words from bytes. -/
def toWords : List Nat → List Nat
  | a :: b :: c :: d :: rest => (a * 16777216 + b * 65536 + c * 256 + d) :: toWords rest
  | _ => []

/-- Split a word list into 16-word chunks. -/
def toChunks : List Nat → List (List Nat)
  | w0 :: w1 :: w2 :: w3 :: w4 :: w5 :: w6 :: w7 :: w8 :: w9 :: w10 :: w11 :: w12 :: w13 :: w14 :: w15 :: rest =>
      [w0, w1, w2, w3, w4, w5, w6, w7, w8, w9, w10, w11, w12, w13, w14, w15] :: toChunks rest
  | _ => []

/-- Message-schedule extension; the accumulator keeps words most recent
first. -/
def extendLoop : Nat → List Nat → List Nat
  | 0, acc => acc
  | fuel + 1, acc =>
      extendLoop fuel
        (u32 (ssig1 (acc.getD 1 0) + acc.getD 6 0 + ssig0 (acc.getD 14 0) + acc.getD 15 0) :: acc)

/-- The 64-word message schedule of one chunk. -/
def schedule (chunk : List Nat) : List Nat := (extendLoop 48 chunk.reverse).reverse

/-- One SHA-256 round. -/
def compressStep (s : Hs) (kw : Nat × Nat) : Hs :=
  let t1 := u32 (s.h + bsig1 s.e + chF s.e s.f s.g + kw.1 + kw.2)
  let t2 := u32 (bsig0 s.a + majF s.a s.b s.c)
  ⟨u32 (t1 + t2), s.a, s.b, s.c, u32 (s.d + t1), s.e, s.f, s.g⟩

/-- Process one 512-bit chunk. -/
def processChunk (h : Hs) (chunk : List Nat) : Hs :=
  let s := (shaK.zip (schedule chunk)).foldl compressStep h
  ⟨u32 (h.a + s.a), u32 (h.b + s.b), u32 (h.c + s.c), u32 (h.d + s.d),
   u32 (h.e + s.e), u32 (h.f + s.f), u32 (h.g + s.g), u32 (h.h + s.h)⟩

/-- The SHA-256 state after absorbing a byte message. -/
def sha256words (msg : List Nat) : Hs := (toChunks (toWords (padMsg msg))).foldl processChunk shaH0

/-- Two lowercase hex digits of a byte. -/
def byteHex (b : Nat) : List Char := [hexC (b / 16 % 16), hexC (b % 16)]

/-- Eight lowercase hex digits of a 32-bit word, big-endian. -/
def wordHex (w : Nat) : List Char :=
  byteHex (w / 16777216) ++ byteHex (w / 65536) ++ byteHex (w / 256) ++ byteHex w

/-- `hashlib.sha256(msg).hexdigest()`: the 64-character lowercase-hex digest. -/
def sha256hex (msg : List Nat) : String :=
  let s := sha256words msg
  ⟨wordHex s.a ++ wordHex s.b ++ wordHex s.c ++ wordHex s.d ++
   wordHex s.e ++ wordHex s.f ++ wordHex s.g ++ wordHex s.h⟩

/-- UTF-8 bytes of an ASCII character list (every encoder below emits ASCII
only, where UTF-8 is the identity on code points). -/
def asciiBytes (cs : List Char) : List Nat := cs.map Char.toNat

/-! ## Vote (`blockchain_voting/voting/vote.py`) -/

/-- A single cast vote (`Vote` dataclass): voter id, candidate, timestamp. -/
structure Vote where
  voter_id : String
  candidate : String
  timestamp : Nat
deriving DecidableEq, Repr

/-- `Vote.__post_init__` validation: both identifiers non-empty, timestamp
positive (non-string fields are excluded by typing).  `none` models the
`ValueError` the constructor raises. -/
def Vote.mk? (voter_id candidate : String) (timestamp : Nat) : Option Vote :=
  if voter_id = "" then none
  else if candidate = "" then none
  else if timestamp = 0 then none
  else some ⟨voter_id, candidate, timestamp⟩

/-- A vote that passed construction-time validation. -/
def Vote.Valid (v : Vote) : Prop :=
  v.voter_id ≠ "" ∧ v.candidate ≠ "" ∧ v.timestamp ≠ 0

instance (v : Vote) : Decidable v.Valid := by unfold Vote.Valid; infer_instance

/-- `json.dumps(vote.to_dict(), sort_keys=True, separators=(',', ':'))`:
keys in sorted order `candidate`, `timestamp`, `voter_id`. -/
def Vote.hashJson (v : Vote) : List Char :=
  lbraceC :: (strL "\"candidate\":" ++ strEnc v.candidate ++
    strL ",\"timestamp\":" ++ natEnc v.timestamp ++
    strL ",\"voter_id\":" ++ strEnc v.voter_id) ++ [rbraceC]

/-- Comma-joined vote encodings. -/
def votesJoin : List Vote → List Char
  | [] => []
  | [v] => v.hashJson
  | v :: w :: vs => v.hashJson ++ ',' :: votesJoin (w :: vs)

/-- The JSON array of the votes of a block, in order. -/
def votesEnc (vs : List Vote) : List Char := '[' :: (votesJoin vs ++ [']'])

/-! ## Block (`blockchain_voting/blockchain/block.py`) -/

/-- A block: index, creation timestamp, ordered votes, previous block's
hash, own hash. -/
structure Block where
  index : Nat
  timestamp : Nat
  votes : List Vote
  previous_hash : String
  hash : String
deriving DecidableEq, Repr, Inhabited

/-- The canonical byte-producing encoding hashed by `Block.calculate_hash`:
`json.dumps({'index': ..., 'timestamp': ..., 'votes': [...],
'previous_hash': ...}, sort_keys=True, separators=(',', ':'))`, so keys
appear as `index`, `previous_hash`, `timestamp`, `votes`. -/
def blockContent (index timestamp : Nat) (votes : List Vote) (previous_hash : String) : List Char :=
  lbraceC :: (strL "\"index\":" ++ natEnc index ++
    strL ",\"previous_hash\":" ++ strEnc previous_hash ++
    strL ",\"timestamp\":" ++ natEnc timestamp ++
    strL ",\"votes\":" ++ votesEnc votes) ++ [rbraceC]

/-- `Block.calculate_hash` as a function of the hashed fields. -/
def calcHash (index timestamp : Nat) (votes : List Vote) (previous_hash : String) : String :=
  sha256hex (asciiBytes (blockContent index timestamp votes previous_hash))

/-- `Block.calculate_hash`: SHA-256 hex digest of the block's canonical
JSON encoding. -/
def Block.calculate_hash (b : Block) : String :=
  calcHash b.index b.timestamp b.votes b.previous_hash

/-- `Block.validate_hash`: stored hash equals the recomputed digest. -/
def Block.validate_hash (b : Block) : Bool := b.hash == b.calculate_hash

/-- The `Block` constructor with `__post_init__`: rejects a non-positive
timestamp (a negative index and non-list fields are excluded by typing),
and computes the hash when the `hash` argument is empty. -/
def Block.mk? (index timestamp : Nat) (votes : List Vote) (previous_hash hash : String) :
    Option Block :=
  if timestamp = 0 then none
  else some ⟨index, timestamp, votes, previous_hash,
    if hash = "" then calcHash index timestamp votes previous_hash else hash⟩

/-- `Block.create_block(index, votes, previous_hash)`: current time, hash
computed.  The clock value is passed explicitly. -/
def Block.create_block (index : Nat) (votes : List Vote) (previous_hash : String)
    (now : Nat) : Option Block :=
  Block.mk? index now votes previous_hash ""

/-! ## Blockchain (`blockchain_voting/blockchain/blockchain.py`) -/

/-- The ledger: an ordered list of blocks. -/
structure Blockchain where
  chain : List Block
deriving DecidableEq, Repr

/-- The genesis block built by `create_genesis_block`: index 0, current
time, no votes, sentinel previous-hash "0", computed hash.  (For a zero
clock the Python constructor would raise, so reachability assumes a
positive clock.) -/
def genesisBlock (t0 : Nat) : Block := ⟨0, t0, [], "0", calcHash 0 t0 [] "0"⟩

/-- `Blockchain.__init__`: a chain holding exactly the genesis block. -/
def Blockchain.init (t0 : Nat) : Blockchain := ⟨[genesisBlock t0]⟩

/-- `Blockchain.get_latest_block`; `none` models the `IndexError` on an
empty chain. -/
def Blockchain.get_latest_block (bc : Blockchain) : Option Block := bc.chain.getLast?

/-- `Blockchain.add_block(votes)` with the clock explicit: build
`Block.create_block(latest.index + 1, votes, latest.hash)` and append it;
any failure (empty chain, invalid timestamp) is caught and reported as
`false` with the chain unchanged. -/
def Blockchain.add_block (bc : Blockchain) (votes : List Vote) (now : Nat) : Bool × Blockchain :=
  match bc.chain.getLast? with
  | none => (false, bc)
  | some latest =>
    match Block.create_block (latest.index + 1) votes latest.hash now with
    | none => (false, bc)
    | some b => (true, ⟨bc.chain ++ [b]⟩)

/-- The loop body of `validate_chain` for blocks after the first: each
block's hash is valid, its `previous_hash` matches the previous block's
hash, and its index is the previous index plus one. -/
def linkedFrom : Block → List Block → Bool
  | _, [] => true
  | prev, b :: bs =>
      b.validate_hash && b.previous_hash == prev.hash && b.index == prev.index + 1 &&
        linkedFrom b bs

/-- `Blockchain.validate_chain`: non-empty, genesis has index 0, sentinel
previous-hash "0" and a valid hash, and every later block passes
`linkedFrom`. -/
def Blockchain.validate_chain (bc : Blockchain) : Bool :=
  match bc.chain with
  | [] => false
  | g :: rest => g.index == 0 && g.previous_hash == "0" && g.validate_hash && linkedFrom g rest

/-- `Blockchain.get_all_votes`: the order-preserving concatenation of
every block's votes. -/
def Blockchain.get_all_votes (bc : Blockchain) : List Vote := (bc.chain.map Block.votes).flatten

/-- `Blockchain.get_block_count`. -/
def Blockchain.get_block_count (bc : Blockchain) : Nat := bc.chain.length

/-- `Blockchain.get_block_by_index`: bounds-checked lookup. -/
def Blockchain.get_block_by_index (bc : Blockchain) (index : Nat) : Option Block :=
  bc.chain[index]?

/-! ## VoterManager (`blockchain_voting/voting/voter_manager.py`)

Python stores `_registered_voters` and `_voted_voters` as `set`s.  We
model each set as the list of its elements in the set's current iteration
order; membership is list membership, and `set.add` appends exactly when
the element is absent.  (CPython's iteration order is an artifact of
string hashing and insertion history — it is *not* a function of the
set's mathematical contents, which is what claim C8 turns on.) -/

/-- The two voter sets, in iteration order. -/
structure VoterManager where
  registered : List String
  voted : List String
deriving DecidableEq, Repr

/-- `VoterManager.register_voter`: `none` models the `ValueError` on an
empty id; `some (false, _)` an already-registered id (no mutation);
`some (true, _)` success. -/
def VoterManager.register_voter (vm : VoterManager) (voter_id : String) :
    Option (Bool × VoterManager) :=
  if voter_id = "" then none
  else if vm.registered.contains voter_id then some (false, vm)
  else some (true, ⟨vm.registered ++ [voter_id], vm.voted⟩)

/-- `VoterManager.is_registered`: empty ids simply return false. -/
def VoterManager.is_registered (vm : VoterManager) (voter_id : String) : Bool :=
  if voter_id = "" then false else vm.registered.contains voter_id

/-- `VoterManager.has_voted`: empty ids simply return false. -/
def VoterManager.has_voted (vm : VoterManager) (voter_id : String) : Bool :=
  if voter_id = "" then false else vm.voted.contains voter_id

/-- `VoterManager.mark_as_voted`: `none` models the `ValueError` on an
empty or unregistered id; otherwise the id is added to the voted set
(idempotently, as `set.add` is). -/
def VoterManager.mark_as_voted (vm : VoterManager) (voter_id : String) : Option VoterManager :=
  if voter_id = "" then none
  else if ¬ vm.registered.contains voter_id then none
  else some ⟨vm.registered, if vm.voted.contains voter_id then vm.voted else vm.voted ++ [voter_id]⟩

/-! ## VotingSystem (`blockchain_voting/voting/voting_system.py`) -/

/-- Outcome of `VotingSystem.register_voter` (the `error` key of the
returned dict). -/
inductive RegResult
  | success
  | duplicateVoter
  | invalidVoterId
deriving DecidableEq, Repr

/-- Outcome of `VotingSystem.cast_vote`. -/
inductive CastResult
  | success
  | unregisteredVoter
  | alreadyVoted
  | invalidVoteData
deriving DecidableEq, Repr

/-- Outcome of `VotingSystem.create_block_from_pending_votes`. -/
inductive SealResult
  | success
  | noPendingVotes
  | blockCreationFailed
deriving DecidableEq, Repr

/-- Outcome of `VotingSystem.load_state`. -/
inductive LoadResult
  | success
  | fileNotFound
  | loadError
  | invalidBlockchain
deriving DecidableEq, Repr

/-- The coordinator: one ledger, one registry, one pending staging list. -/
structure VotingSystem where
  blockchain : Blockchain
  voter_manager : VoterManager
  pending_votes : List Vote
deriving DecidableEq, Repr

/-- `VotingSystem.__init__` with the clock explicit. -/
def VotingSystem.init (t0 : Nat) : VotingSystem := ⟨Blockchain.init t0, ⟨[], []⟩, []⟩

/-- `VotingSystem.register_voter`: delegates to the registry and tags the
outcome. -/
def VotingSystem.register_voter (s : VotingSystem) (voter_id : String) :
    RegResult × VotingSystem :=
  match s.voter_manager.register_voter voter_id with
  | none => (.invalidVoterId, s)
  | some (false, _) => (.duplicateVoter, s)
  | some (true, vm) => (.success, { s with voter_manager := vm })

/-- `VotingSystem.cast_vote` with the clock explicit: check
`is_registered`, check `has_voted`, construct the vote (a `ValueError`
there is caught with nothing mutated), append it to pending, then
`mark_as_voted` (whose — unreachable — failure would be caught only after
the append, exactly as in the source). -/
def VotingSystem.cast_vote (s : VotingSystem) (voter_id candidate : String) (now : Nat) :
    CastResult × VotingSystem :=
  if ¬ s.voter_manager.is_registered voter_id then (.unregisteredVoter, s)
  else if s.voter_manager.has_voted voter_id then (.alreadyVoted, s)
  else
    match Vote.mk? voter_id candidate now with
    | none => (.invalidVoteData, s)
    | some v =>
      match s.voter_manager.mark_as_voted voter_id with
      | none => (.invalidVoteData, { s with pending_votes := s.pending_votes ++ [v] })
      | some vm =>
          (.success, { s with pending_votes := s.pending_votes ++ [v], voter_manager := vm })

/-- `VotingSystem.create_block_from_pending_votes` with the clock
explicit: fails on empty staging; otherwise hands the whole pending list
to `add_block` and clears staging only on success. -/
def VotingSystem.create_block_from_pending_votes (s : VotingSystem) (now : Nat) :
    SealResult × VotingSystem :=
  if s.pending_votes.isEmpty then (.noPendingVotes, s)
  else
    match s.blockchain.add_block s.pending_votes now with
    | (false, _) => (.blockCreationFailed, s)
    | (true, bc) => (.success, { s with blockchain := bc, pending_votes := [] })

/-- The result dict of `validate_system_integrity`.  The two issue
messages are modelled as the two voter-id sets they interpolate
(`issues` is empty iff both are). -/
structure IntegrityReport where
  blockchain_valid : Bool
  unmarked_voters : List String
  extra_voted_voters : List String
  integrity_valid : Bool
  total_blocks : Nat
  total_votes : Nat
  pending_votes : Nat
  registered_voters : Nat
  voted_voters : Nat
deriving DecidableEq, Repr

/-- `VotingSystem.validate_system_integrity`: structural chain validity;
voters found in sealed votes but not marked voted; voters marked voted
with no vote in the chain or pending; `integrity_valid` iff no issues. -/
def VotingSystem.validate_system_integrity (s : VotingSystem) : IntegrityReport :=
  let all_votes := s.blockchain.get_all_votes
  let blockchain_voters := (all_votes.map Vote.voter_id).dedup
  let voted := s.voter_manager.voted.dedup
  let unmarked := blockchain_voters.filter (fun id => ¬ voted.contains id)
  let pending_voters := s.pending_votes.map Vote.voter_id
  let extra := voted.filter
    (fun id => ¬ (blockchain_voters.contains id || pending_voters.contains id))
  { blockchain_valid := s.blockchain.validate_chain
    unmarked_voters := unmarked
    extra_voted_voters := extra
    integrity_valid := unmarked.isEmpty && extra.isEmpty
    total_blocks := s.blockchain.get_block_count
    total_votes := all_votes.length
    pending_votes := s.pending_votes.length
    registered_voters := s.voter_manager.registered.dedup.length
    voted_voters := voted.length }

/-! ## Serialization documents (`to_dict` / `from_dict`)

A `Vote` dict and a `Block` dict carry exactly the structure's fields, so
the structures stand for their own documents; `Vote.from_dict` and
`Block.from_dict` re-run the constructors' validation. -/

/-- `Vote.from_dict`: re-validates through the constructor. -/
def Vote.from_dict (v : Vote) : Option Vote := Vote.mk? v.voter_id v.candidate v.timestamp

/-- `Block.from_dict`: votes through `Vote.from_dict`, then the `Block`
constructor with the stored hash. -/
def Block.from_dict (b : Block) : Option Block := do
  let vs ← b.votes.mapM Vote.from_dict
  Block.mk? b.index b.timestamp vs b.previous_hash b.hash

/-- `Blockchain.from_dict`: rebuild every block; no chain-level
validation. -/
def Blockchain.from_dict (chainDoc : List Block) : Option Blockchain := do
  let bs ← chainDoc.mapM Block.from_dict
  pure ⟨bs⟩

/-- The dict produced by `VoterManager.to_dict`: the two sets listed in
iteration order (not sorted). -/
structure VoterManagerDoc where
  registered_voters : List String
  voted_voters : List String
deriving DecidableEq, Repr

/-- `VoterManager.to_dict`. -/
def VoterManager.to_dict (vm : VoterManager) : VoterManagerDoc := ⟨vm.registered, vm.voted⟩

/-- The loop of `VoterManager.from_dict` over `registered_voters`:
reject empty ids, `set.add` the rest. -/
def addRegistered : List String → List String → Option (List String)
  | acc, [] => some acc
  | acc, id :: rest =>
      if id = "" then none
      else addRegistered (if acc.contains id then acc else acc ++ [id]) rest

/-- The loop of `VoterManager.from_dict` over `voted_voters`: reject
empty or unregistered ids, `set.add` the rest. -/
def addVoted (registered : List String) : List String → List String → Option (List String)
  | acc, [] => some acc
  | acc, id :: rest =>
      if id = "" then none
      else if ¬ registered.contains id then none
      else addVoted registered (if acc.contains id then acc else acc ++ [id]) rest

/-- `VoterManager.from_dict`. -/
def VoterManager.from_dict (d : VoterManagerDoc) : Option VoterManager := do
  let reg ← addRegistered [] d.registered_voters
  let vot ← addVoted reg [] d.voted_voters
  pure ⟨reg, vot⟩

/-- The dict produced by `VotingSystem.to_dict`. -/
structure SystemDoc where
  blockchain : List Block
  voter_manager : VoterManagerDoc
  pending_votes : List Vote
deriving DecidableEq, Repr

/-- `VotingSystem.to_dict`. -/
def VotingSystem.to_dict (s : VotingSystem) : SystemDoc :=
  ⟨s.blockchain.chain, s.voter_manager.to_dict, s.pending_votes⟩

/-- `VotingSystem.from_dict`. -/
def VotingSystem.from_dict (d : SystemDoc) : Option VotingSystem := do
  let bc ← Blockchain.from_dict d.blockchain
  let vm ← VoterManager.from_dict d.voter_manager
  let pv ← d.pending_votes.mapM Vote.from_dict
  pure ⟨bc, vm, pv⟩

/-- What `load_state` reads: a missing file, a file `json.load` or
`from_dict` rejects (any raised exception), or a decoded document. -/
inductive LoadInput
  | missing
  | decodeError
  | doc (d : SystemDoc)

/-- `VotingSystem.load_state`: rebuild the system from the document,
require `blockchain_valid` of the rebuilt system, and only then replace
the in-memory state; every failure leaves the prior state untouched. -/
def VotingSystem.load_state (s : VotingSystem) (input : LoadInput) :
    LoadResult × VotingSystem :=
  match input with
  | .missing => (.fileNotFound, s)
  | .decodeError => (.loadError, s)
  | .doc d =>
    match VotingSystem.from_dict d with
    | none => (.loadError, s)
    | some sys =>
        if sys.validate_system_integrity.blockchain_valid then (.success, sys)
        else (.invalidBlockchain, s)

/-! ## The bytes written by `save_state`

`save_state` writes `json.dump(self.to_dict(), f, indent=2,
separators=(',', ': '))`; this renderer reproduces that text exactly
(keys in dict insertion order, two-space indent, `', '` after keys). -/

/-- The newline character. -/
abbrev nlC : Char := Char.ofNat 10

/-- `n` spaces. -/
def indentC (n : Nat) : List Char := List.replicate n ' '

/-- Comma-newline-joined items, each indented by `lvl`. -/
def joinInd (lvl : Nat) : List (List Char) → List Char
  | [] => []
  | [x] => indentC lvl ++ x
  | x :: xs => indentC lvl ++ x ++ ',' :: nlC :: joinInd lvl xs

/-- A JSON array at indentation level `lvl` under `indent=2`. -/
def renderArr (lvl : Nat) (items : List (List Char)) : List Char :=
  match items with
  | [] => strL "[]"
  | _ => '[' :: nlC :: (joinInd (lvl + 2) items ++ nlC :: (indentC lvl ++ [']']))

/-- A JSON object at indentation level `lvl` under `indent=2` with
`separators=(',', ': ')`; keys come pre-quoted. -/
def renderObj (lvl : Nat) (fields : List (List Char × List Char)) : List Char :=
  match fields with
  | [] => [lbraceC, rbraceC]
  | _ =>
      lbraceC :: nlC ::
        (joinInd (lvl + 2) (fields.map (fun kv => kv.1 ++ ':' :: ' ' :: kv.2)) ++
          nlC :: (indentC lvl ++ [rbraceC]))

/-- `vote.to_dict()` rendered: keys `voter_id`, `candidate`, `timestamp`
in insertion order. -/
def renderVote (lvl : Nat) (v : Vote) : List Char :=
  renderObj lvl
    [(strL "\"voter_id\"", strEnc v.voter_id),
     (strL "\"candidate\"", strEnc v.candidate),
     (strL "\"timestamp\"", natEnc v.timestamp)]

/-- `block.to_dict()` rendered: keys `index`, `timestamp`, `votes`,
`previous_hash`, `hash` in insertion order. -/
def renderBlock (lvl : Nat) (b : Block) : List Char :=
  renderObj lvl
    [(strL "\"index\"", natEnc b.index),
     (strL "\"timestamp\"", natEnc b.timestamp),
     (strL "\"votes\"", renderArr (lvl + 2) (b.votes.map (renderVote (lvl + 4)))),
     (strL "\"previous_hash\"", strEnc b.previous_hash),
     (strL "\"hash\"", strEnc b.hash)]

/-- The exact text `save_state` writes for a system. -/
def VotingSystem.save_state_text (s : VotingSystem) : List Char :=
  renderObj 0
    [(strL "\"blockchain\"",
      renderObj 2
        [(strL "\"chain\"", renderArr 4 (s.blockchain.chain.map (renderBlock 6)))]),
     (strL "\"voter_manager\"",
      renderObj 2
        [(strL "\"registered_voters\"",
          renderArr 4 (s.voter_manager.registered.map strEnc)),
         (strL "\"voted_voters\"",
          renderArr 4 (s.voter_manager.voted.map strEnc))]),
     (strL "\"pending_votes\"", renderArr 2 (s.pending_votes.map (renderVote 4)))]

/-! ## Reachable coordinator states -/

/-- Coordinator states reachable through the public mutating operations
(registration, vote casting, block sealing), from a fresh system created
at a positive clock value. -/
inductive Reachable : VotingSystem → Prop
  | init (t0 : Nat) : 0 < t0 → Reachable (VotingSystem.init t0)
  | register (s : VotingSystem) (id : String) :
      Reachable s → Reachable (s.register_voter id).2
  | cast (s : VotingSystem) (id cand : String) (now : Nat) :
      Reachable s → Reachable (s.cast_vote id cand now).2
  | sealStep (s : VotingSystem) (now : Nat) :
      Reachable s → Reachable (s.create_block_from_pending_votes now).2

/-- `ReachFrom s t`: state `t` arises from `s` by some sequence of the
public mutating operations. -/
inductive ReachFrom : VotingSystem → VotingSystem → Prop
  | refl (s : VotingSystem) : ReachFrom s s
  | register (s t : VotingSystem) (id : String) :
      ReachFrom s t → ReachFrom s (t.register_voter id).2
  | cast (s t : VotingSystem) (id cand : String) (now : Nat) :
      ReachFrom s t → ReachFrom s (t.cast_vote id cand now).2
  | sealStep (s t : VotingSystem) (now : Nat) :
      ReachFrom s t → ReachFrom s (t.create_block_from_pending_votes now).2

/-! ## Helper lemmas: the ledger append operation -/

/-- `add_block` either fails leaving the chain unchanged, or appends exactly
one freshly hashed block built from the latest block. -/
theorem add_block_spec (bc : Blockchain) (votes : List Vote) (now : Nat) :
    ((bc.add_block votes now).1 = false ∧ (bc.add_block votes now).2 = bc) ∨
    (∃ latest, bc.chain.getLast? = some latest ∧ now ≠ 0 ∧
      (bc.add_block votes now).1 = true ∧
      (bc.add_block votes now).2.chain =
        bc.chain ++ [⟨latest.index + 1, now, votes, latest.hash,
          calcHash (latest.index + 1) now votes latest.hash⟩]) := by
  unfold Blockchain.add_block Block.create_block Block.mk?
  cases h : bc.chain.getLast? with
  | none => simp
  | some latest =>
    by_cases hn : now = 0 <;> simp [hn]

/-- A successful `add_block` run, destructured. -/
theorem add_block_success (bc : Blockchain) (votes : List Vote) (now : Nat)
    (h : (bc.add_block votes now).1 = true) :
    ∃ latest, bc.chain.getLast? = some latest ∧ now ≠ 0 ∧
      (bc.add_block votes now).2.chain =
        bc.chain ++ [⟨latest.index + 1, now, votes, latest.hash,
          calcHash (latest.index + 1) now votes latest.hash⟩] := by
  rcases add_block_spec bc votes now with ⟨hf, _⟩ | ⟨latest, h1, h2, _, h4⟩
  · rw [h] at hf; cases hf
  · exact ⟨latest, h1, h2, h4⟩

/-- A failed `add_block` run leaves the ledger unchanged. -/
theorem add_block_failure (bc : Blockchain) (votes : List Vote) (now : Nat)
    (h : (bc.add_block votes now).1 = false) : (bc.add_block votes now).2 = bc := by
  rcases add_block_spec bc votes now with ⟨_, he⟩ | ⟨_, _, _, ht, _⟩
  · exact he
  · rw [h] at ht; cases ht

/-- C5: `seal_block` is all-or-nothing — on empty staging it fails with
`NoPendingVotes` leaving the state unchanged (on a fresh coordinator the
block count stays 1); on non-empty staging, success appends exactly one
block holding the entire staging sequence in order and clears staging,
while failure leaves the whole state (staging included) intact. -/
theorem seal_block_all_or_nothing (s : VotingSystem) (now t0 : Nat) :
    (s.pending_votes = [] →
      s.create_block_from_pending_votes now = (SealResult.noPendingVotes, s)) ∧
    ((VotingSystem.init t0).create_block_from_pending_votes now =
        (SealResult.noPendingVotes, VotingSystem.init t0) ∧
      ((VotingSystem.init t0).create_block_from_pending_votes now).2.blockchain.get_block_count
        = 1) ∧
    (s.pending_votes ≠ [] →
      ((s.create_block_from_pending_votes now).1 = SealResult.success →
        ∃ latest,
          s.blockchain.get_latest_block = some latest ∧
          (s.create_block_from_pending_votes now).2.blockchain.chain =
            s.blockchain.chain ++ [⟨latest.index + 1, now, s.pending_votes, latest.hash,
              calcHash (latest.index + 1) now s.pending_votes latest.hash⟩] ∧
          (s.create_block_from_pending_votes now).2.pending_votes = [] ∧
          (s.create_block_from_pending_votes now).2.voter_manager = s.voter_manager) ∧
      ((s.create_block_from_pending_votes now).1 ≠ SealResult.success →
        s.create_block_from_pending_votes now = (SealResult.blockCreationFailed, s))) := by
  refine ⟨?_, ⟨?_, ?_⟩, ?_⟩
  · intro h
    simp [VotingSystem.create_block_from_pending_votes, h]
  · simp [VotingSystem.create_block_from_pending_votes, VotingSystem.init]
  · simp [VotingSystem.create_block_from_pending_votes, VotingSystem.init,
      Blockchain.init, Blockchain.get_block_count]
  · intro hne
    have hne' : s.pending_votes.isEmpty = false := by
      cases h : s.pending_votes with
      | nil => exact absurd h hne
      | cons a l => simp [h]
    constructor
    · intro hsucc
      unfold VotingSystem.create_block_from_pending_votes at hsucc ⊢
      rw [hne'] at hsucc ⊢
      simp only [Bool.false_eq_true, if_false] at hsucc ⊢
      cases hab : s.blockchain.add_block s.pending_votes now with
      | mk ok bc =>
        cases ok with
        | false => simp [hab] at hsucc
        | true =>
          have h1 := add_block_success s.blockchain s.pending_votes now (by rw [hab])
          rcases h1 with ⟨latest, hl, _, hchain⟩
          refine ⟨latest, by simpa [Blockchain.get_latest_block] using hl, ?_⟩
          rw [hab] at hchain
          simp [hab]
          exact hchain
    · intro hfail
      unfold VotingSystem.create_block_from_pending_votes at hfail ⊢
      rw [hne'] at hfail ⊢
      simp only [Bool.false_eq_true, if_false] at hfail ⊢
      cases hab : s.blockchain.add_block s.pending_votes now with
      | mk ok bc =>
        cases ok with
        | true => simp [hab] at hfail
        | false =>
          have := add_block_failure s.blockchain s.pending_votes now (by rw [hab])
          simp [hab]

/-- C9: `load_state` re-validates the decoded ledger before accepting it,
and every failure (missing file, decode error, rejected document, invalid
decoded chain) leaves the prior in-memory state fully intact. -/
theorem load_state_validating_all_or_nothing (s : VotingSystem) (input : LoadInput) :
    ((s.load_state input).1 ≠ LoadResult.success → (s.load_state input).2 = s) ∧
    ((s.load_state input).1 = LoadResult.success →
      ∃ d sys, input = LoadInput.doc d ∧ VotingSystem.from_dict d = some sys ∧
        sys.blockchain.validate_chain = true ∧ (s.load_state input).2 = sys) := by
  cases input with
  | missing => simp [VotingSystem.load_state]
  | decodeError => simp [VotingSystem.load_state]
  | doc d =>
    cases hfd : VotingSystem.from_dict d with
    | none => simp [VotingSystem.load_state, hfd]
    | some sys =>
      by_cases hv : sys.validate_system_integrity.blockchain_valid
      · have hvc : sys.blockchain.validate_chain = true := hv
        have hls : s.load_state (LoadInput.doc d) = (LoadResult.success, sys) := by
          simp [VotingSystem.load_state, hfd, hv]
        constructor
        · intro h
          exact absurd (by rw [hls]) h
        · intro _
          exact ⟨d, sys, rfl, hfd, hvc, by rw [hls]⟩
      · have hls : s.load_state (LoadInput.doc d) = (LoadResult.invalidBlockchain, s) := by
          simp [VotingSystem.load_state, hfd, hv]
        constructor
        · intro _
          rw [hls]
        · intro h
          rw [hls] at h
          cases h

/-- C10: casting with an empty candidate for a registered, not-yet-voted
voter fails as invalid vote data, mutates nothing (no pending append, no
voted mark), and a later cast with a valid candidate still succeeds. -/
theorem cast_vote_invalid_candidate_no_mutation (s : VotingSystem)
    (voter_id cand : String) (now now2 : Nat)
    (hreg : s.voter_manager.is_registered voter_id = true)
    (hnv : s.voter_manager.has_voted voter_id = false)
    (hcand : cand ≠ "") (hnow2 : now2 ≠ 0) :
    (s.cast_vote voter_id "" now).1 = CastResult.invalidVoteData ∧
    (s.cast_vote voter_id "" now).2 = s ∧
    ((s.cast_vote voter_id "" now).2.cast_vote voter_id cand now2).1 = CastResult.success := by
  have hid : voter_id ≠ "" := by
    intro h
    rw [h] at hreg
    simp [VoterManager.is_registered] at hreg
  have hcontains : s.voter_manager.registered.contains voter_id = true := by
    unfold VoterManager.is_registered at hreg
    rw [if_neg hid] at hreg
    exact hreg
  have hmkNone : Vote.mk? voter_id "" now = none := by
    simp [Vote.mk?, hid]
  have hmkSome : Vote.mk? voter_id cand now2 = some ⟨voter_id, cand, now2⟩ := by
    simp [Vote.mk?, hid, hcand, hnow2]
  have hfail : s.cast_vote voter_id "" now = (CastResult.invalidVoteData, s) := by
    unfold VotingSystem.cast_vote
    rw [if_neg (by simp [hreg]), if_neg (by simp [hnv]), hmkNone]
  refine ⟨by rw [hfail], by rw [hfail], ?_⟩
  have h2 : (s.cast_vote voter_id "" now).2 = s := by rw [hfail]
  rw [h2]
  unfold VotingSystem.cast_vote
  rw [if_neg (by simp [hreg]), if_neg (by simp [hnv]), hmkSome]
  have hmem : voter_id ∈ s.voter_manager.registered := by simpa using hcontains
  simp [VoterManager.mark_as_voted, hid, hmem]

/-- Witness for C10 at a concrete registered voter. -/
theorem cast_vote_invalid_candidate_no_mutation_witness :
    (((VotingSystem.init 1).register_voter "alice").2.cast_vote "alice" "" 5).1
      = CastResult.invalidVoteData :=
  (cast_vote_invalid_candidate_no_mutation ((VotingSystem.init 1).register_voter "alice").2
    "alice" "A" 5 6 (by decide) (by decide) (by decide) (by decide)).1

/-! ## Helper lemmas: digests are never empty -/

/-- A word renders as eight hex characters. -/
theorem wordHex_length (w : Nat) : (wordHex w).length = 8 := by
  simp [wordHex, byteHex]

/-- A SHA-256 hex digest has 64 characters. -/
theorem sha256hex_length (msg : List Nat) : (sha256hex msg).length = 64 := by
  simp [sha256hex, String.length, wordHex_length]

/-- A computed block hash is never the empty string. -/
theorem calcHash_ne_empty (i t : Nat) (vs : List Vote) (ph : String) :
    calcHash i t vs ph ≠ "" := by
  intro h
  have h1 := congrArg String.length h
  rw [calcHash] at h1
  rw [sha256hex_length] at h1
  simp [String.length] at h1

/-! ## Helper lemmas: effect of each coordinator operation -/

/-- `contains` on string lists is membership. -/
theorem contains_iff (l : List String) (a : String) : l.contains a = true ↔ a ∈ l :=
  List.elem_iff

/-- `contains` is false exactly on non-members. -/
theorem contains_false_iff (l : List String) (a : String) : l.contains a = false ↔ a ∉ l := by
  constructor
  · intro h hm
    rw [(contains_iff l a).mpr hm] at h
    cases h
  · intro h
    cases hc : l.contains a
    · rfl
    · exact absurd ((contains_iff l a).mp hc) h

/-- `register_voter` either leaves the state unchanged or appends one new
non-empty id to the registered set. -/
theorem register_voter_effect (s : VotingSystem) (id : String) :
    (s.register_voter id).2 = s ∨
    (id ≠ "" ∧ s.voter_manager.registered.contains id = false ∧
      (s.register_voter id).2 =
        { s with voter_manager := ⟨s.voter_manager.registered ++ [id], s.voter_manager.voted⟩ }) := by
  unfold VotingSystem.register_voter VoterManager.register_voter
  by_cases h1 : id = ""
  · left; simp [h1]
  · by_cases h2 : id ∈ s.voter_manager.registered
    · left; simp [h1, h2]
    · right
      refine ⟨h1, (contains_false_iff _ _).mpr h2, ?_⟩
      simp [h1, h2]

/-- A successful registration: the id was non-empty and fresh, and it is
appended to the registered set. -/
theorem register_voter_success (s : VotingSystem) (id : String)
    (h : (s.register_voter id).1 = RegResult.success) :
    id ≠ "" ∧ s.voter_manager.registered.contains id = false ∧
      (s.register_voter id).2 =
        { s with voter_manager := ⟨s.voter_manager.registered ++ [id], s.voter_manager.voted⟩ } := by
  unfold VotingSystem.register_voter VoterManager.register_voter at h ⊢
  by_cases h1 : id = ""
  · simp [h1] at h
  · by_cases h2 : id ∈ s.voter_manager.registered
    · simp [h1, h2] at h
    · exact ⟨h1, (contains_false_iff _ _).mpr h2, by simp [h1, h2]⟩

/-- `mark_as_voted` on a non-empty registered id. -/
theorem mark_as_voted_some (vm : VoterManager) (id : String)
    (h1 : id ≠ "") (h2 : vm.registered.contains id = true) :
    vm.mark_as_voted id =
      some ⟨vm.registered, if vm.voted.contains id then vm.voted else vm.voted ++ [id]⟩ := by
  unfold VoterManager.mark_as_voted
  simp [h1, (contains_iff _ _).mp h2]

/-- `cast_vote` either leaves the state unchanged or appends the one new
vote to pending and marks its voter as voted. -/
theorem cast_vote_effect (s : VotingSystem) (id cand : String) (now : Nat) :
    (s.cast_vote id cand now).2 = s ∨
    (id ≠ "" ∧ cand ≠ "" ∧ now ≠ 0 ∧
      s.voter_manager.registered.contains id = true ∧
      s.voter_manager.voted.contains id = false ∧
      (s.cast_vote id cand now).2 =
        { s with
            pending_votes := s.pending_votes ++ [⟨id, cand, now⟩],
            voter_manager := ⟨s.voter_manager.registered, s.voter_manager.voted ++ [id]⟩ }) := by
  unfold VotingSystem.cast_vote
  by_cases hr : s.voter_manager.is_registered id
  · by_cases hv : s.voter_manager.has_voted id
    · left; simp [hr, hv]
    · have hid : id ≠ "" := by
        intro h
        rw [h] at hr
        simp [VoterManager.is_registered] at hr
      have hcont : s.voter_manager.registered.contains id = true := by
        unfold VoterManager.is_registered at hr
        rw [if_neg hid] at hr
        exact hr
      have hnv : s.voter_manager.voted.contains id = false := by
        unfold VoterManager.has_voted at hv
        rw [if_neg hid] at hv
        simpa using hv
      by_cases hc : cand = ""
      · left; simp [hr, hv, Vote.mk?, hid, hc]
      · by_cases hn : now = 0
        · left; simp [hr, hv, Vote.mk?, hid, hc, hn]
        · right
          refine ⟨hid, hc, hn, hcont, hnv, ?_⟩
          have hmk : Vote.mk? id cand now = some ⟨id, cand, now⟩ := by
            simp [Vote.mk?, hid, hc, hn]
          rw [if_neg (by simp [hr]), if_neg (by simp [hv]), hmk,
            mark_as_voted_some s.voter_manager id hid hcont]
          simp [(contains_false_iff _ _).mp hnv]
  · left; simp [hr]

/-- `seal_block` either leaves the state unchanged or appends exactly one
block carrying the whole pending list and clears pending. -/
theorem seal_effect (s : VotingSystem) (now : Nat) :
    (s.create_block_from_pending_votes now).2 = s ∨
    (∃ latest, s.blockchain.chain.getLast? = some latest ∧ now ≠ 0 ∧
      (s.create_block_from_pending_votes now).2 =
        { s with
            blockchain := ⟨s.blockchain.chain ++ [⟨latest.index + 1, now, s.pending_votes,
              latest.hash, calcHash (latest.index + 1) now s.pending_votes latest.hash⟩]⟩,
            pending_votes := [] }) := by
  unfold VotingSystem.create_block_from_pending_votes
  by_cases he : s.pending_votes.isEmpty
  · left; simp [he]
  · rcases add_block_spec s.blockchain s.pending_votes now with ⟨hf, hs⟩ | ⟨latest, hl, hn, ht, hc⟩
    · left
      cases hab : s.blockchain.add_block s.pending_votes now with
      | mk ok bc =>
        rw [hab] at hf
        cases ok with
        | false => simp [he, hab]
        | true => cases hf
    · right
      refine ⟨latest, hl, hn, ?_⟩
      cases hab : s.blockchain.add_block s.pending_votes now with
      | mk ok bc =>
        rw [hab] at ht hc
        cases ok with
        | false => cases ht
        | true =>
          simp only at hc
          simp [he, hab]
          cases bc with
          | mk bchain =>
            simp only at hc
            rw [hc]

/-! ## Helper lemmas: reachable-state invariants -/

/-- Invariants every reachable coordinator state maintains. -/
structure WF (s : VotingSystem) : Prop where
  blocks_ts : ∀ b ∈ s.blockchain.chain, b.timestamp ≠ 0
  blocks_hash : ∀ b ∈ s.blockchain.chain, b.hash ≠ ""
  chain_votes : ∀ b ∈ s.blockchain.chain, ∀ v ∈ b.votes, v.Valid
  pending_ok : ∀ v ∈ s.pending_votes, v.Valid
  reg_ne : ∀ id ∈ s.voter_manager.registered, id ≠ ""
  reg_nodup : s.voter_manager.registered.Nodup
  voted_ne : ∀ id ∈ s.voter_manager.voted, id ≠ ""
  voted_nodup : s.voter_manager.voted.Nodup
  voted_sub : ∀ id ∈ s.voter_manager.voted, id ∈ s.voter_manager.registered

/-- Reachable states are well-formed. -/
theorem reachable_wf (s : VotingSystem) (h : Reachable s) : WF s := by
  induction h with
  | init t0 ht =>
    refine ⟨?_, ?_, ?_, ?_, ?_, ?_, ?_, ?_, ?_⟩ <;>
      simp [VotingSystem.init, Blockchain.init, genesisBlock]
    · omega
    · exact calcHash_ne_empty 0 t0 [] "0"
  | register s id _ ih =>
    rcases register_voter_effect s id with he | ⟨hid, _, he⟩
    · rw [he]; exact ih
    · rw [he]
      refine ⟨ih.blocks_ts, ih.blocks_hash, ih.chain_votes, ih.pending_ok, ?_, ?_, ih.voted_ne,
        ih.voted_nodup, ?_⟩
      · intro x hx
        rcases List.mem_append.mp hx with hx | hx
        · exact ih.reg_ne x hx
        · rw [List.mem_singleton.mp hx]; exact hid
      · rw [List.nodup_append]
        refine ⟨ih.reg_nodup, List.nodup_singleton id, ?_⟩
        intro x hx hx'
        rw [List.mem_singleton.mp hx'] at hx
        have := (contains_iff _ _).mpr hx
        simp_all
      · intro x hx
        exact List.mem_append.mpr (Or.inl (ih.voted_sub x hx))
  | cast s id cand now _ ih =>
    rcases cast_vote_effect s id cand now with he | ⟨hid, hc, hn, hcont, hnv, he⟩
    · rw [he]; exact ih
    · rw [he]
      refine ⟨ih.blocks_ts, ih.blocks_hash, ih.chain_votes, ?_, ih.reg_ne, ih.reg_nodup, ?_, ?_, ?_⟩
      · intro v hv
        rcases List.mem_append.mp hv with hv | hv
        · exact ih.pending_ok v hv
        · rw [List.mem_singleton.mp hv]
          exact ⟨hid, hc, hn⟩
      · intro x hx
        rcases List.mem_append.mp hx with hx | hx
        · exact ih.voted_ne x hx
        · rw [List.mem_singleton.mp hx]; exact hid
      · rw [List.nodup_append]
        refine ⟨ih.voted_nodup, List.nodup_singleton id, ?_⟩
        intro x hx hx'
        rw [List.mem_singleton.mp hx'] at hx
        have := (contains_iff _ _).mpr hx
        simp_all
      · intro x hx
        rcases List.mem_append.mp hx with hx | hx
        · exact ih.voted_sub x hx
        · rw [List.mem_singleton.mp hx]
          exact (contains_iff _ _).mp hcont
  | sealStep s now _ ih =>
    rcases seal_effect s now with he | ⟨latest, _, hn, he⟩
    · rw [he]; exact ih
    · rw [he]
      refine ⟨?_, ?_, ?_, by simp, ih.reg_ne, ih.reg_nodup, ih.voted_ne, ih.voted_nodup,
        ih.voted_sub⟩
      · intro b hb
        rcases List.mem_append.mp hb with hb | hb
        · exact ih.blocks_ts b hb
        · rw [List.mem_singleton.mp hb]; exact hn
      · intro b hb
        rcases List.mem_append.mp hb with hb | hb
        · exact ih.blocks_hash b hb
        · rw [List.mem_singleton.mp hb]
          exact calcHash_ne_empty _ _ _ _
      · intro b hb
        rcases List.mem_append.mp hb with hb | hb
        · exact ih.chain_votes b hb
        · rw [List.mem_singleton.mp hb]
          intro v hv
          exact ih.pending_ok v hv

/-- Registered and voted memberships only grow along the public
operations. -/
theorem reach_from_mono (s t : VotingSystem) (h : ReachFrom s t) (id : String) :
    (id ∈ s.voter_manager.registered → id ∈ t.voter_manager.registered) ∧
    (id ∈ s.voter_manager.voted → id ∈ t.voter_manager.voted) := by
  induction h with
  | refl => exact ⟨fun h => h, fun h => h⟩
  | register t id' _ ih =>
    rcases register_voter_effect t id' with he | ⟨_, _, he⟩
    · rw [he]; exact ih
    · rw [he]
      exact ⟨fun h => List.mem_append.mpr (Or.inl (ih.1 h)), ih.2⟩
  | cast t id' cand now _ ih =>
    rcases cast_vote_effect t id' cand now with he | ⟨_, _, _, _, _, he⟩
    · rw [he]; exact ih
    · rw [he]
      exact ⟨ih.1, fun h => List.mem_append.mpr (Or.inl (ih.2 h))⟩
  | sealStep t now _ ih =>
    rcases seal_effect t now with he | ⟨_, _, _, he⟩
    · rw [he]; exact ih
    · rw [he]; exact ih

/-- A voter registered and marked voted is refused with `AlreadyVoted`,
with the state returned unchanged. -/
theorem cast_vote_already_voted (t : VotingSystem) (id c2 : String) (n2 : Nat)
    (hr : id ∈ t.voter_manager.registered) (hv : id ∈ t.voter_manager.voted)
    (hid : id ≠ "") :
    t.cast_vote id c2 n2 = (CastResult.alreadyVoted, t) := by
  unfold VotingSystem.cast_vote
  have h1 : t.voter_manager.is_registered id = true := by
    unfold VoterManager.is_registered
    rw [if_neg hid]
    exact (contains_iff _ _).mpr hr
  have h2 : t.voter_manager.has_voted id = true := by
    unfold VoterManager.has_voted
    rw [if_neg hid]
    exact (contains_iff _ _).mpr hv
  rw [if_neg (by simp [h1]), if_pos (by simp [h2])]

/-- C1: one-vote enforcement — after a successful registration the first
cast for that id succeeds, and from then on every cast for the same id
(any candidate, any clock) fails with `AlreadyVoted` and returns the
state unchanged, in particular leaving the pending staging list as it
was. -/
theorem one_vote_enforcement (s : VotingSystem) (id cand : String) (now : Nat)
    (hs : Reachable s) (hreg : (s.register_voter id).1 = RegResult.success)
    (hcand : cand ≠ "") (hnow : now ≠ 0) :
    ((s.register_voter id).2.cast_vote id cand now).1 = CastResult.success ∧
    (∀ t, ReachFrom ((s.register_voter id).2.cast_vote id cand now).2 t →
      ∀ c2 n2, t.cast_vote id c2 n2 = (CastResult.alreadyVoted, t)) := by
  obtain ⟨hid, hfresh, hs1⟩ := register_voter_success s id hreg
  have hwf := reachable_wf s hs
  have hnv1 : ((s.register_voter id).2.voter_manager.voted.contains id) = false := by
    rw [hs1]
    by_cases h : s.voter_manager.voted.contains id
    · exfalso
      have hv := hwf.voted_sub id ((contains_iff _ _).mp h)
      have := (contains_iff _ _).mpr hv
      simp_all
    · simpa using h
  have hr1 : ((s.register_voter id).2.voter_manager.registered.contains id) = true := by
    rw [hs1]
    exact (contains_iff _ _).mpr (List.mem_append.mpr (Or.inr (List.mem_singleton.mpr rfl)))
  rcases cast_vote_effect (s.register_voter id).2 id cand now with he | ⟨_, _, _, _, _, he⟩
  · exfalso
    -- the unchanged branches are all excluded: registered, not voted, valid data
    unfold VotingSystem.cast_vote at he
    have hisreg : (s.register_voter id).2.voter_manager.is_registered id = true := by
      unfold VoterManager.is_registered
      rw [if_neg hid]
      exact hr1
    have hhv : (s.register_voter id).2.voter_manager.has_voted id = false := by
      unfold VoterManager.has_voted
      rw [if_neg hid]
      exact hnv1
    have hmk : Vote.mk? id cand now = some ⟨id, cand, now⟩ := by
      simp [Vote.mk?, hid, hcand, hnow]
    rw [if_neg (by simp [hisreg]), if_neg (by simp [hhv]), hmk,
      mark_as_voted_some _ id hid hr1] at he
    simp only at he
    have := congrArg VotingSystem.pending_votes he
    simp at this
  · constructor
    · unfold VotingSystem.cast_vote
      have hisreg : (s.register_voter id).2.voter_manager.is_registered id = true := by
        unfold VoterManager.is_registered
        rw [if_neg hid]
        exact hr1
      have hhv : (s.register_voter id).2.voter_manager.has_voted id = false := by
        unfold VoterManager.has_voted
        rw [if_neg hid]
        exact hnv1
      have hmk : Vote.mk? id cand now = some ⟨id, cand, now⟩ := by
        simp [Vote.mk?, hid, hcand, hnow]
      rw [if_neg (by simp [hisreg]), if_neg (by simp [hhv]), hmk,
        mark_as_voted_some _ id hid hr1]
    · intro t hrf c2 n2
      have hvoted2 : id ∈ ((s.register_voter id).2.cast_vote id cand now).2.voter_manager.voted := by
        rw [he]
        simp
      have hreg2 : id ∈ ((s.register_voter id).2.cast_vote id cand now).2.voter_manager.registered := by
        rw [he]
        simp only
        rw [hs1]
        simp
      have hmono := reach_from_mono _ t hrf id
      exact cast_vote_already_voted t id c2 n2 (hmono.1 hreg2) (hmono.2 hvoted2) hid

/-- Witness for C1 at a concrete run: register alice, cast once, retry. -/
theorem one_vote_enforcement_witness :
    (((VotingSystem.init 1).register_voter "alice").2.cast_vote "alice" "A" 2).1
      = CastResult.success :=
  (one_vote_enforcement (VotingSystem.init 1) "alice" "A" 2
    (Reachable.init 1 (by decide)) (by decide) (by decide) (by decide)).1

/-! ## Helper lemmas: chain validity under appends -/

/-- `getLast?` of a cons in terms of `getLastD`. -/
theorem getLast?_cons_eq {α : Type} (a : α) (l : List α) :
    (a :: l).getLast? = some (l.getLastD a) := by
  induction l generalizing a with
  | nil => rfl
  | cons b l ih => rw [List.getLast?_cons_cons, ih, List.getLastD_cons]

/-- `linkedFrom` across an appended final block. -/
theorem linkedFrom_append_iff (p : Block) (bs : List Block) (b : Block) :
    linkedFrom p (bs ++ [b]) = true ↔
      (linkedFrom p bs = true ∧ b.validate_hash = true ∧
        b.previous_hash = (bs.getLastD p).hash ∧ b.index = (bs.getLastD p).index + 1) := by
  induction bs generalizing p with
  | nil => simp [linkedFrom, and_assoc]
  | cons q bs ih =>
    simp only [List.cons_append, linkedFrom, List.getLastD_cons, Bool.and_eq_true, beq_iff_eq,
      List.append_eq, ih q]
    tauto

/-- A fresh ledger validates. -/
theorem validate_chain_init (t0 : Nat) : (Blockchain.init t0).validate_chain = true := by
  simp [Blockchain.init, Blockchain.validate_chain, genesisBlock, linkedFrom,
    Block.validate_hash, Block.calculate_hash]

/-- A ledger is its chain. -/
theorem bcEq (x y : Blockchain) (h : x.chain = y.chain) : x = y := by
  cases x; cases y; simpa using h

/-- A successful `add_block` preserves chain validity. -/
theorem validate_preserved (bc : Blockchain) (votes : List Vote) (now : Nat)
    (hv : bc.validate_chain = true) (hs : (bc.add_block votes now).1 = true) :
    (bc.add_block votes now).2.validate_chain = true := by
  obtain ⟨latest, hl, _, hchain⟩ := add_block_success bc votes now hs
  obtain ⟨l⟩ := bc
  cases l with
  | nil => simp [Blockchain.validate_chain] at hv
  | cons g rest =>
    simp only at hchain hl
    rw [getLast?_cons_eq] at hl
    have hlatest : latest = rest.getLastD g := by
      injection hl with h
      exact h.symm
    simp only [Blockchain.validate_chain, Bool.and_eq_true, beq_iff_eq] at hv
    obtain ⟨⟨⟨hg0, hgp⟩, hgh⟩, hlink⟩ := hv
    rw [bcEq (({ chain := g :: rest } : Blockchain).add_block votes now).2
      ⟨g :: (rest ++ [⟨latest.index + 1, now, votes, latest.hash,
        calcHash (latest.index + 1) now votes latest.hash⟩])⟩ (by rw [hchain]; rfl)]
    simp only [List.cons_append, Blockchain.validate_chain, Bool.and_eq_true, beq_iff_eq]
    refine ⟨⟨⟨hg0, hgp⟩, hgh⟩, ?_⟩
    rw [linkedFrom_append_iff]
    refine ⟨hlink, ?_, by rw [hlatest], by rw [hlatest]⟩
    simp [Block.validate_hash, Block.calculate_hash]

/-- All operations in a batch of `add_block` calls succeed (each judged in
the state the previous ones produced). -/
def allSucceedB : Blockchain → List (List Vote × Nat) → Bool
  | _, [] => true
  | bc, op :: ops => (bc.add_block op.1 op.2).1 && allSucceedB (bc.add_block op.1 op.2).2 ops

/-- The ledger after a batch of `add_block` calls. -/
def appendAll : Blockchain → List (List Vote × Nat) → Blockchain
  | bc, [] => bc
  | bc, op :: ops => appendAll (bc.add_block op.1 op.2).2 ops

/-- Chain validity is preserved by any batch of successful appends. -/
theorem validate_appendAll (ops : List (List Vote × Nat)) (bc : Blockchain)
    (hv : bc.validate_chain = true) (hs : allSucceedB bc ops = true) :
    (appendAll bc ops).validate_chain = true := by
  induction ops generalizing bc with
  | nil => exact hv
  | cons op ops ih =>
    rw [allSucceedB, Bool.and_eq_true] at hs
    exact ih _ (validate_preserved bc op.1 op.2 hv hs.1) hs.2

/-- C2: chain linkage — every successful `add_block` appends exactly one
block whose index is the prior latest index plus one and whose
`previous_hash` is the prior latest hash; and after any finite batch of
successful appends to a fresh genesis-only ledger, `validate_chain`
holds. -/
theorem chain_linkage (t0 : Nat) (ops : List (List Vote × Nat)) (h0 : 0 < t0)
    (hsucc : allSucceedB (Blockchain.init t0) ops = true) :
    (∀ (bc : Blockchain) (votes : List Vote) (now : Nat),
      (bc.add_block votes now).1 = true →
      ∃ latest b, bc.chain.getLast? = some latest ∧
        b.index = latest.index + 1 ∧ b.previous_hash = latest.hash ∧
        (bc.add_block votes now).2.chain = bc.chain ++ [b]) ∧
    (appendAll (Blockchain.init t0) ops).validate_chain = true := by
  constructor
  · intro bc votes now h
    obtain ⟨latest, hl, _, hchain⟩ := add_block_success bc votes now h
    exact ⟨latest, _, hl, rfl, rfl, hchain⟩
  · exact validate_appendAll ops _ (validate_chain_init t0) hsucc

/-- Witness for C2: one successful append to a fresh ledger validates. -/
theorem chain_linkage_witness :
    (appendAll (Blockchain.init 1) [([⟨"alice", "A", 2⟩], 2)]).validate_chain = true :=
  (chain_linkage 1 [([⟨"alice", "A", 2⟩], 2)] (by decide) (by decide)).2

/-! ## Helper lemmas: indexed characterization of chain validity -/

/-- `linkedFrom` says: every block in the tail has a valid hash, and every
adjacent pair (starting at the head block) is linked by hash and by
consecutive indices. -/
theorem linkedFrom_iff (p : Block) (bs : List Block) :
    linkedFrom p bs = true ↔
      ((∀ (j : Nat) (b : Block), bs[j]? = some b → b.validate_hash = true) ∧
       (∀ (j : Nat) (a b : Block), (p :: bs)[j]? = some a → (p :: bs)[j + 1]? = some b →
         b.previous_hash = a.hash ∧ b.index = a.index + 1)) := by
  induction bs generalizing p with
  | nil =>
    simp only [linkedFrom, List.getElem?_nil, true_iff]
    constructor
    · intro j b h; cases h
    · intro j a b _ h2
      cases j with
      | zero => cases h2
      | succ k => cases h2
  | cons q bs ih =>
    simp only [linkedFrom, Bool.and_eq_true, beq_iff_eq, ih q]
    constructor
    · rintro ⟨⟨⟨hqh, hqp⟩, hqi⟩, hbs, hpair⟩
      refine ⟨?_, ?_⟩
      · intro j b h
        cases j with
        | zero =>
          rw [List.getElem?_cons_zero] at h
          injection h with h
          rw [← h]; exact hqh
        | succ k =>
          rw [List.getElem?_cons_succ] at h
          exact hbs k b h
      · intro j a b h1 h2
        cases j with
        | zero =>
          rw [List.getElem?_cons_zero] at h1
          rw [List.getElem?_cons_succ, List.getElem?_cons_zero] at h2
          injection h1 with h1
          injection h2 with h2
          rw [← h1, ← h2]
          exact ⟨hqp, hqi⟩
        | succ k =>
          rw [List.getElem?_cons_succ] at h1 h2
          exact hpair k a b h1 h2
    · rintro ⟨hall, hpair⟩
      refine ⟨⟨⟨?_, ?_⟩, ?_⟩, ?_, ?_⟩
      · exact hall 0 q (by rw [List.getElem?_cons_zero])
      · exact (hpair 0 p q (by rw [List.getElem?_cons_zero])
          (by rw [List.getElem?_cons_succ, List.getElem?_cons_zero])).1
      · exact (hpair 0 p q (by rw [List.getElem?_cons_zero])
          (by rw [List.getElem?_cons_succ, List.getElem?_cons_zero])).2
      · intro j b h
        exact hall (j + 1) b (by rwa [List.getElem?_cons_succ])
      · intro j a b h1 h2
        exact hpair (j + 1) a b (by rwa [List.getElem?_cons_succ])
          (by rwa [List.getElem?_cons_succ])

/-- `validate_chain` in terms of indexed conditions: non-empty; the head
is a genesis-shaped block with a valid hash; every block's stored hash is
valid; adjacent blocks are linked by hash and consecutive indices. -/
theorem validate_chain_true_iff (bc : Blockchain) :
    bc.validate_chain = true ↔
      (bc.chain ≠ [] ∧
       (∀ (g : Block), bc.chain[0]? = some g →
         g.index = 0 ∧ g.previous_hash = "0" ∧ g.validate_hash = true) ∧
       (∀ (j : Nat) (b : Block), bc.chain[j]? = some b → b.validate_hash = true) ∧
       (∀ (j : Nat) (a b : Block), bc.chain[j]? = some a → bc.chain[j + 1]? = some b →
         b.previous_hash = a.hash ∧ b.index = a.index + 1)) := by
  obtain ⟨l⟩ := bc
  cases l with
  | nil => simp [Blockchain.validate_chain]
  | cons g rest =>
    simp only [Blockchain.validate_chain, Bool.and_eq_true, beq_iff_eq, linkedFrom_iff g rest]
    constructor
    · rintro ⟨⟨⟨hg0, hgp⟩, hgh⟩, hall, hpair⟩
      refine ⟨by simp, ?_, ?_, ?_⟩
      · intro g' h
        rw [List.getElem?_cons_zero] at h
        injection h with h
        rw [← h]
        exact ⟨hg0, hgp, hgh⟩
      · intro j b h
        cases j with
        | zero =>
          rw [List.getElem?_cons_zero] at h
          injection h with h
          rw [← h]; exact hgh
        | succ k =>
          rw [List.getElem?_cons_succ] at h
          exact hall k b h
      · exact hpair
    · rintro ⟨-, hgen, hall, hpair⟩
      obtain ⟨hg0, hgp, hgh⟩ := hgen g (by rw [List.getElem?_cons_zero])
      refine ⟨⟨⟨hg0, hgp⟩, hgh⟩, ?_, hpair⟩
      intro j b h
      exact hall (j + 1) b (by rwa [List.getElem?_cons_succ])

/-- C3: tamper detection — on a valid ledger with at least two blocks,
replacing any single block's stored hash, previous-hash, or index with a
different value makes `validate_chain` return false. -/
theorem tamper_detection (bc : Blockchain) (i : Nat) (newHash newPrev : String)
    (newIndex : Nat) (hv : bc.validate_chain = true) (hlen : 2 ≤ bc.chain.length)
    (hi : i < bc.chain.length) :
    (newHash ≠ (bc.chain.getD i default).hash →
      Blockchain.validate_chain
        ⟨bc.chain.set i { bc.chain.getD i default with hash := newHash }⟩ = false) ∧
    (newPrev ≠ (bc.chain.getD i default).previous_hash →
      Blockchain.validate_chain
        ⟨bc.chain.set i { bc.chain.getD i default with previous_hash := newPrev }⟩ = false) ∧
    (newIndex ≠ (bc.chain.getD i default).index →
      Blockchain.validate_chain
        ⟨bc.chain.set i { bc.chain.getD i default with index := newIndex }⟩ = false) := by
  have hblk : bc.chain[i]? = some bc.chain[i] := List.getElem?_eq_getElem hi
  have hgetD : bc.chain.getD i default = bc.chain[i] := by
    rw [List.getD_eq_getElem?_getD, hblk]
    rfl
  rw [validate_chain_true_iff] at hv
  obtain ⟨-, hgen, hall, hpair⟩ := hv
  rw [hgetD]
  refine ⟨?_, ?_, ?_⟩
  · -- stored hash replaced
    intro hne
    rw [Bool.eq_false_iff]
    intro hvalid
    rw [validate_chain_true_iff] at hvalid
    obtain ⟨-, hgen', hall', hpair'⟩ := hvalid
    by_cases hnext : i + 1 < bc.chain.length
    · -- an inner block: the next block's previous_hash pins the old hash
      have hnexteq : bc.chain[i + 1]? = some bc.chain[i + 1] := List.getElem?_eq_getElem hnext
      have hold := (hpair i _ _ hblk hnexteq).1
      have hnew := (hpair' i { bc.chain[i] with hash := newHash } bc.chain[i + 1]
        (show (bc.chain.set i _)[i]? = some _ from List.getElem?_set_self hi)
        (show (bc.chain.set i _)[i + 1]? = some _ from by
          rw [List.getElem?_set_ne (by omega), hnexteq])).1
      simp only at hnew
      exact hne (hnew.symm.trans hold)
    · -- the last block: its own recomputed digest pins the old hash
      have holdh := hall i _ hblk
      rw [Block.validate_hash, beq_iff_eq] at holdh
      have hnewh := hall' i { bc.chain[i] with hash := newHash }
        (show (bc.chain.set i _)[i]? = some _ from List.getElem?_set_self hi)
      rw [Block.validate_hash, beq_iff_eq] at hnewh
      have hsame : Block.calculate_hash { bc.chain[i] with hash := newHash }
          = Block.calculate_hash bc.chain[i] := rfl
      rw [hsame] at hnewh
      simp only at hnewh
      exact hne (hnewh.trans holdh.symm)
  · -- previous_hash replaced
    intro hne
    rw [Bool.eq_false_iff]
    intro hvalid
    rw [validate_chain_true_iff] at hvalid
    obtain ⟨-, hgen', hall', hpair'⟩ := hvalid
    cases i with
    | zero =>
      have hold := (hgen _ hblk).2.1
      have hnew := (hgen' { bc.chain[0] with previous_hash := newPrev }
        (show (bc.chain.set 0 _)[0]? = some _ from List.getElem?_set_self hi)).2.1
      simp only at hnew
      exact hne (hnew.trans hold.symm)
    | succ j =>
      have hj : j < bc.chain.length := by omega
      have hjeq : bc.chain[j]? = some bc.chain[j] := List.getElem?_eq_getElem hj
      have hold := (hpair j _ _ hjeq hblk).1
      have hnew := (hpair' j bc.chain[j] { bc.chain[j + 1] with previous_hash := newPrev }
        (show (bc.chain.set (j + 1) _)[j]? = some _ from by
          rw [List.getElem?_set_ne (by omega), hjeq])
        (show (bc.chain.set (j + 1) _)[j + 1]? = some _ from List.getElem?_set_self hi)).1
      simp only at hnew
      exact hne (hnew.trans hold.symm)
  · -- index replaced
    intro hne
    rw [Bool.eq_false_iff]
    intro hvalid
    rw [validate_chain_true_iff] at hvalid
    obtain ⟨-, hgen', hall', hpair'⟩ := hvalid
    cases i with
    | zero =>
      have hold := (hgen _ hblk).1
      have hnew := (hgen' { bc.chain[0] with index := newIndex }
        (show (bc.chain.set 0 _)[0]? = some _ from List.getElem?_set_self hi)).1
      simp only at hnew
      exact hne (hnew.trans hold.symm)
    | succ j =>
      have hj : j < bc.chain.length := by omega
      have hjeq : bc.chain[j]? = some bc.chain[j] := List.getElem?_eq_getElem hj
      have hold := (hpair j _ _ hjeq hblk).2
      have hnew := (hpair' j bc.chain[j] { bc.chain[j + 1] with index := newIndex }
        (show (bc.chain.set (j + 1) _)[j]? = some _ from by
          rw [List.getElem?_set_ne (by omega), hjeq])
        (show (bc.chain.set (j + 1) _)[j + 1]? = some _ from List.getElem?_set_self hi)).2
      simp only at hnew
      exact hne (hnew.trans hold.symm)

/-- A concrete two-block ledger: genesis plus one sealed vote. -/
def bcW : Blockchain := ((Blockchain.init 1).add_block [⟨"a", "A", 2⟩] 2).2

/-- Witness for C3: corrupting the last block's stored hash on a concrete
valid two-block ledger invalidates the chain. -/
theorem tamper_detection_witness :
    Blockchain.validate_chain
      ⟨bcW.chain.set 1 { bcW.chain.getD 1 default with hash := "x" }⟩ = false :=
  (tamper_detection bcW 1 "x" "p" 7 (by decide) (by decide) (by decide)).1 (by decide)

/-- C6: `validate_integrity` computes exactly — structural validity of the
ledger; the issue set of voter ids found in sealed votes but not marked
voted; the issue set of ids marked voted with no vote sealed or pending;
and overall integrity (both reported flags) holding iff the chain is
structurally valid and both issue sets are empty. -/
theorem validate_integrity_spec (s : VotingSystem) :
    (s.validate_system_integrity.blockchain_valid = s.blockchain.validate_chain) ∧
    (∀ (id : String), id ∈ s.validate_system_integrity.unmarked_voters ↔
      (id ∈ s.blockchain.get_all_votes.map Vote.voter_id ∧ id ∉ s.voter_manager.voted)) ∧
    (∀ (id : String), id ∈ s.validate_system_integrity.extra_voted_voters ↔
      (id ∈ s.voter_manager.voted ∧ id ∉ s.blockchain.get_all_votes.map Vote.voter_id ∧
        id ∉ s.pending_votes.map Vote.voter_id)) ∧
    ((s.validate_system_integrity.blockchain_valid &&
        s.validate_system_integrity.integrity_valid) = true ↔
      (s.blockchain.validate_chain = true ∧
        s.validate_system_integrity.unmarked_voters = [] ∧
        s.validate_system_integrity.extra_voted_voters = [])) := by
  refine ⟨rfl, ?_, ?_, ?_⟩
  · intro id
    simp [VotingSystem.validate_system_integrity, List.mem_filter, List.mem_dedup]
  · intro id
    simp [VotingSystem.validate_system_integrity, List.mem_filter, List.mem_dedup]
  · simp [VotingSystem.validate_system_integrity, List.isEmpty_iff, Bool.and_eq_true]

/-! ## Helper lemmas: serialization round trip -/

/-- `Vote.from_dict` accepts a valid vote unchanged. -/
theorem vote_from_dict_valid (v : Vote) (h : v.Valid) : Vote.from_dict v = some v := by
  obtain ⟨h1, h2, h3⟩ := h
  simp [Vote.from_dict, Vote.mk?, h1, h2, h3]

/-- `mapM` over `Vote.from_dict` accepts a list of valid votes unchanged. -/
theorem mapM_votes_valid (vs : List Vote) (h : ∀ v ∈ vs, v.Valid) :
    vs.mapM Vote.from_dict = some vs := by
  induction vs with
  | nil => rfl
  | cons v vs ih =>
    rw [List.mapM_cons, vote_from_dict_valid v (h v (by simp)),
      ih (fun w hw => h w (by simp [hw]))]
    rfl

/-- `Block.from_dict` accepts a well-formed block unchanged. -/
theorem block_from_dict_valid (b : Block) (hts : b.timestamp ≠ 0) (hh : b.hash ≠ "")
    (hv : ∀ v ∈ b.votes, v.Valid) : Block.from_dict b = some b := by
  rw [Block.from_dict]
  rw [mapM_votes_valid b.votes hv]
  simp [Block.mk?, hts, hh]

/-- `mapM` over `Block.from_dict` accepts a list of well-formed blocks
unchanged. -/
theorem mapM_blocks_valid (bs : List Block) (hts : ∀ b ∈ bs, b.timestamp ≠ 0)
    (hh : ∀ b ∈ bs, b.hash ≠ "") (hv : ∀ b ∈ bs, ∀ v ∈ b.votes, v.Valid) :
    bs.mapM Block.from_dict = some bs := by
  induction bs with
  | nil => rfl
  | cons b bs ih =>
    rw [List.mapM_cons, block_from_dict_valid b (hts b (by simp)) (hh b (by simp))
      (hv b (by simp)), ih (fun x hx => hts x (by simp [hx])) (fun x hx => hh x (by simp [hx]))
      (fun x hx => hv x (by simp [hx]))]
    rfl

/-- Rebuilding the registered set accepts a duplicate-free list of
non-empty ids unchanged (appended to the accumulator). -/
theorem addRegistered_spec (ids : List String) (acc : List String)
    (hne : ∀ id ∈ ids, id ≠ "") (hd : ∀ id ∈ ids, id ∉ acc) (hnd : ids.Nodup) :
    addRegistered acc ids = some (acc ++ ids) := by
  induction ids generalizing acc with
  | nil => simp [addRegistered]
  | cons id rest ih =>
    rw [addRegistered]
    rw [if_neg (by simpa using hne id (by simp))]
    rw [if_neg (by
      intro hc
      exact hd id (by simp) ((contains_iff _ _).mp hc))]
    rw [ih (acc ++ [id]) (fun x hx => hne x (by simp [hx])) ?_ (List.Nodup.of_cons hnd)]
    · simp
    · intro x hx hmem
      rcases List.mem_append.mp hmem with hm | hm
      · exact hd x (by simp [hx]) hm
      · rw [List.mem_singleton.mp hm] at hx
        exact (List.nodup_cons.mp hnd).1 hx

/-- Rebuilding the voted set accepts a duplicate-free list of non-empty,
registered ids unchanged. -/
theorem addVoted_spec (registered : List String) (ids : List String) (acc : List String)
    (hne : ∀ id ∈ ids, id ≠ "") (hreg : ∀ id ∈ ids, id ∈ registered)
    (hd : ∀ id ∈ ids, id ∉ acc) (hnd : ids.Nodup) :
    addVoted registered acc ids = some (acc ++ ids) := by
  induction ids generalizing acc with
  | nil => simp [addVoted]
  | cons id rest ih =>
    rw [addVoted]
    rw [if_neg (by simpa using hne id (by simp))]
    rw [if_neg (by
      intro hc
      exact hc ((contains_iff _ _).mpr (hreg id (by simp))))]
    rw [if_neg (by
      intro hc
      exact hd id (by simp) ((contains_iff _ _).mp hc))]
    rw [ih (acc ++ [id]) (fun x hx => hne x (by simp [hx])) (fun x hx => hreg x (by simp [hx])) ?_
      (List.Nodup.of_cons hnd)]
    · simp
    · intro x hx hmem
      rcases List.mem_append.mp hmem with hm | hm
      · exact hd x (by simp [hx]) hm
      · rw [List.mem_singleton.mp hm] at hx
        exact (List.nodup_cons.mp hnd).1 hx

/-- Deserialization inverts serialization on every well-formed state. -/
theorem from_dict_to_dict (s : VotingSystem) (hwf : WF s) :
    VotingSystem.from_dict s.to_dict = some s := by
  rw [VotingSystem.from_dict, VotingSystem.to_dict]
  rw [show (Blockchain.from_dict s.blockchain.chain) = some s.blockchain from ?_]
  · rw [show (VoterManager.from_dict s.voter_manager.to_dict) = some s.voter_manager from ?_]
    · rw [mapM_votes_valid s.pending_votes hwf.pending_ok]
      rfl
    · rw [VoterManager.to_dict, VoterManager.from_dict]
      rw [addRegistered_spec s.voter_manager.registered [] hwf.reg_ne (by simp) hwf.reg_nodup]
      simp only [List.nil_append, Option.bind_eq_bind, Option.some_bind]
      rw [addVoted_spec s.voter_manager.registered s.voter_manager.voted []
        hwf.voted_ne hwf.voted_sub (by simp) hwf.voted_nodup]
      rfl
  · rw [Blockchain.from_dict]
    rw [mapM_blocks_valid s.blockchain.chain hwf.blocks_ts hwf.blocks_hash hwf.chain_votes]
    rfl

/-- C7: serialization round trip — for every reachable coordinator state,
`from_dict (to_dict s)` succeeds and yields a state with the same
registered set, voted set, pending vote list, ledger block count and
ledger vote content, on which `validate_integrity` agrees with the
original (indeed it yields the state itself). -/
theorem serialization_round_trip (s : VotingSystem) (hs : Reachable s) :
    ∃ s2, VotingSystem.from_dict s.to_dict = some s2 ∧
      (∀ (id : String), id ∈ s2.voter_manager.registered ↔ id ∈ s.voter_manager.registered) ∧
      (∀ (id : String), id ∈ s2.voter_manager.voted ↔ id ∈ s.voter_manager.voted) ∧
      s2.pending_votes = s.pending_votes ∧
      s2.blockchain.get_block_count = s.blockchain.get_block_count ∧
      s2.blockchain.get_all_votes = s.blockchain.get_all_votes ∧
      s2.validate_system_integrity = s.validate_system_integrity :=
  ⟨s, from_dict_to_dict s (reachable_wf s hs), fun _ => Iff.rfl, fun _ => Iff.rfl,
    rfl, rfl, rfl, rfl⟩

/-- Witness for C7 on a concrete reachable state. -/
theorem serialization_round_trip_witness :
    (VotingSystem.from_dict (VotingSystem.init 1).to_dict).isSome = true := by
  obtain ⟨s2, h, -⟩ := serialization_round_trip (VotingSystem.init 1)
    (Reachable.init 1 (by decide))
  rw [h]
  rfl

/-! ## C8: serialization is not canonical

`VoterManager.to_dict` emits `list(self._registered_voters)` and
`list(self._voted_voters)` — the raw set iteration order, which in
CPython depends on string hashing (randomized per process) and insertion
history, not on the set's contents.  Two logically-identical states can
therefore serialize to different bytes.  The two states below hold the
same registered *set* but in different internal orders. -/

/-- A fixed block shared by the two states under comparison. -/
def gBlockC8 : Block := ⟨0, 1, [], "0", "h"⟩

/-- Registered set {"alice","bob"} materialized in one iteration order. -/
def sysA : VotingSystem := ⟨⟨[gBlockC8]⟩, ⟨["alice", "bob"], []⟩, []⟩

/-- The same logical state with the other iteration order. -/
def sysB : VotingSystem := ⟨⟨[gBlockC8]⟩, ⟨["bob", "alice"], []⟩, []⟩

/-- C8 (refuted by the code): two coordinator states with identical
ledger contents, identical registered-id set, identical voted-id set and
identical pending votes, whose `save_state` outputs differ byte for
byte. -/
theorem serialize_not_canonical :
    (∀ (id : String), id ∈ sysA.voter_manager.registered ↔ id ∈ sysB.voter_manager.registered) ∧
    sysA.voter_manager.voted = sysB.voter_manager.voted ∧
    sysA.blockchain = sysB.blockchain ∧
    sysA.pending_votes = sysB.pending_votes ∧
    sysA.save_state_text ≠ sysB.save_state_text := by
  refine ⟨?_, rfl, rfl, rfl, by decide⟩
  intro id
  constructor <;> (intro h; simp [sysA, sysB] at h ⊢; tauto)

/-! ## Helper lemmas: injectivity of the canonical encoding — decimals

Following the codec discipline (round-trip laws give injectivity), each
piece of the canonical JSON encoding gets a decoding function and a
round-trip lemma; cancellation lemmas then peel a shared encoding off
two equal strings. -/

/-- `Char.ofNat` below the surrogate range keeps its code point. -/
theorem toNat_ofNat_lt (m : Nat) (h : m < 55296) : (Char.ofNat m).toNat = m := by
  have hv : Nat.isValidChar m := Or.inl h
  simp [Char.ofNat, hv, Char.ofNatAux, Char.toNat, UInt32.toNat, UInt32.ofNat',
    BitVec.toNat_ofNat]

/-- ASCII decimal digit test. -/
def isDigitC (c : Char) : Bool := 48 ≤ c.toNat && c.toNat ≤ 57

/-- Whether a character list starts with a decimal digit. -/
def headIsDigit : List Char → Bool
  | [] => false
  | c :: _ => isDigitC c

/-- Greedy decimal reader: consume digits into an accumulator. -/
def decNatLoop : Nat → List Char → Nat × List Char
  | acc, [] => (acc, [])
  | acc, c :: rest =>
      if isDigitC c then decNatLoop (acc * 10 + (c.toNat - 48)) rest else (acc, c :: rest)

/-- `10 ^ (number of digits)`, with the same fuel shape as `decDigits`. -/
def magAux : Nat → Nat → Nat
  | 0, _ => 1
  | fuel + 1, n => if n < 10 then 10 else 10 * magAux fuel (n / 10)

/-- The digit value of a rendered digit. -/
theorem toNat_digitC (n : Nat) (h : n < 10) : (digitC n).toNat = 48 + n :=
  toNat_ofNat_lt (48 + n) (by omega)

/-- Rendered digits read back as digits. -/
theorem isDigitC_digitC (n : Nat) (h : n < 10) : isDigitC (digitC n) = true := by
  simp [isDigitC, toNat_digitC n h]
  omega

/-- The reader folds an entire rendered digit block into the
accumulator. -/
theorem decNatLoop_decDigits (fuel : Nat) :
    ∀ (n acc : Nat) (r : List Char), n < fuel →
      decNatLoop acc (decDigits fuel n ++ r) = decNatLoop (acc * magAux fuel n + n) r := by
  induction fuel with
  | zero => intro n acc r h; omega
  | succ f ih =>
    intro n acc r h
    by_cases h10 : n < 10
    · rw [decDigits, if_pos h10, magAux, if_pos h10]
      simp only [List.cons_append, List.nil_append]
      rw [decNatLoop, if_pos (isDigitC_digitC n h10), toNat_digitC n h10]
      congr 1
      omega
    · rw [decDigits, if_neg h10, magAux, if_neg h10]
      have hdiv : n / 10 < f := by omega
      rw [List.append_assoc, ih (n / 10) acc _ hdiv]
      simp only [List.cons_append, List.nil_append]
      rw [decNatLoop, if_pos (isDigitC_digitC (n % 10) (by omega)),
        toNat_digitC (n % 10) (by omega)]
      congr 1
      have := Nat.div_add_mod n 10
      ring_nf
      omega

/-- The reader stops at a non-digit. -/
theorem decNatLoop_stop (acc : Nat) (r : List Char) (h : headIsDigit r = false) :
    decNatLoop acc r = (acc, r) := by
  cases r with
  | nil => rfl
  | cons c rest =>
    rw [decNatLoop, if_neg]
    rw [headIsDigit] at h
    simp [h]

/-- Round trip for the decimal rendering. -/
theorem decNatLoop_natEnc (n acc : Nat) (r : List Char) (h : headIsDigit r = false) :
    decNatLoop acc (natEnc n ++ r) = (acc * magAux (n + 1) n + n, r) := by
  rw [natEnc, decNatLoop_decDigits (n + 1) n acc r (by omega), decNatLoop_stop _ _ h]

/-- Two decimal renderings followed by non-digits agree only on equal
numbers and equal tails. -/
theorem natEnc_cancel (n n' : Nat) (r r' : List Char)
    (h : natEnc n ++ r = natEnc n' ++ r')
    (hr : headIsDigit r = false) (hr' : headIsDigit r' = false) : n = n' ∧ r = r' := by
  have h1 := decNatLoop_natEnc n 0 r hr
  have h2 := decNatLoop_natEnc n' 0 r' hr'
  rw [h, h2] at h1
  injection h1 with ha hb
  refine ⟨by omega, hb.symm⟩

/-! ## Helper lemmas: injectivity of the canonical encoding — strings -/

/-- Value of a lowercase hex digit character. -/
def hexVal (c : Char) : Nat := if c.toNat ≤ 57 then c.toNat - 48 else c.toNat - 87

/-- `hexVal` inverts `hexC` on nibble values. -/
theorem hexVal_hexC : ∀ m, m < 16 → hexVal (hexC m) = m := by decide

/-- Value of four hex digit characters. -/
def hex4val (h1 h2 h3 h4 : Char) : Nat :=
  hexVal h1 * 4096 + hexVal h2 * 256 + hexVal h3 * 16 + hexVal h4

/-- `hex4val` inverts `hex4` below 2^16. -/
theorem hex4val_hex4 (n : Nat) (h : n < 65536) :
    hex4val (hexC (n / 4096 % 16)) (hexC (n / 256 % 16)) (hexC (n / 16 % 16))
      (hexC (n % 16)) = n := by
  rw [hex4val, hexVal_hexC _ (by omega), hexVal_hexC _ (by omega), hexVal_hexC _ (by omega),
    hexVal_hexC _ (by omega)]
  omega

/-- Decoder for the escaped body of a JSON string: reads escape units up
to the closing unescaped quote, returning the decoded characters and the
input after the quote. -/
def decEsc : List Char → Option (List Char × List Char)
  | [] => none
  | c :: rest =>
    if c = quoteC then some ([], rest)
    else if c = backslashC then
      match rest with
      | [] => none
      | e :: rest2 =>
        if e = 'u' then
          match rest2 with
          | h1 :: h2 :: h3 :: h4 :: rest3 =>
            if 55296 ≤ hex4val h1 h2 h3 h4 ∧ hex4val h1 h2 h3 h4 < 56320 then
              match rest3 with
              | b2 :: u2 :: k1 :: k2 :: k3 :: k4 :: rest4 =>
                if b2 = backslashC ∧ u2 = 'u' then
                  match decEsc rest4 with
                  | some (cs, r) =>
                      some (Char.ofNat (65536 + (hex4val h1 h2 h3 h4 - 55296) * 1024 +
                        (hex4val k1 k2 k3 k4 - 56320)) :: cs, r)
                  | none => none
                else none
              | _ => none
            else
              match decEsc rest3 with
              | some (cs, r) => some (Char.ofNat (hex4val h1 h2 h3 h4) :: cs, r)
              | none => none
          | _ => none
        else
          match decEsc rest2 with
          | some (cs, r) =>
              some ((if e = 'n' then Char.ofNat 10
                else if e = 'r' then Char.ofNat 13
                else if e = 't' then Char.ofNat 9
                else if e = 'b' then Char.ofNat 8
                else if e = 'f' then Char.ofNat 12
                else e) :: cs, r)
          | none => none
    else
      match decEsc rest with
      | some (cs, r) => some (c :: cs, r)
      | none => none

/-- Round trip: decoding an escaped body stops at the closing quote and
recovers the original characters. -/
theorem decEsc_escList : ∀ (cs r : List Char), decEsc (escList cs ++ quoteC :: r) = some (cs, r) := by
  intro cs
  induction cs with
  | nil =>
    intro r
    rw [escList]
    simp only [List.nil_append]
    unfold decEsc
    simp
  | cons c cs ih =>
    intro r
    rw [escList, List.append_assoc]
    by_cases h1 : c = quoteC
    · rw [escChar, if_pos h1]
      subst h1
      simp only [List.cons_append, List.nil_append]
      unfold decEsc
      simp +decide [ih r]
    · by_cases h2 : c = backslashC
      · rw [escChar, if_neg h1, if_pos h2]
        subst h2
        simp only [List.cons_append, List.nil_append]
        unfold decEsc
        simp +decide [ih r]
      · by_cases h3 : c = Char.ofNat 10
        · rw [escChar, if_neg h1, if_neg h2, if_pos h3]
          subst h3
          simp only [List.cons_append, List.nil_append]
          unfold decEsc
          simp +decide [ih r]
        · by_cases h4 : c = Char.ofNat 13
          · rw [escChar, if_neg h1, if_neg h2, if_neg h3, if_pos h4]
            subst h4
            simp only [List.cons_append, List.nil_append]
            unfold decEsc
            simp +decide [ih r]
          · by_cases h5 : c = Char.ofNat 9
            · rw [escChar, if_neg h1, if_neg h2, if_neg h3, if_neg h4, if_pos h5]
              subst h5
              simp only [List.cons_append, List.nil_append]
              unfold decEsc
              simp +decide [ih r]
            · by_cases h6 : c = Char.ofNat 8
              · rw [escChar, if_neg h1, if_neg h2, if_neg h3, if_neg h4, if_neg h5, if_pos h6]
                subst h6
                simp only [List.cons_append, List.nil_append]
                unfold decEsc
                simp +decide [ih r]
              · by_cases h7 : c = Char.ofNat 12
                · rw [escChar, if_neg h1, if_neg h2, if_neg h3, if_neg h4, if_neg h5, if_neg h6,
                    if_pos h7]
                  subst h7
                  simp only [List.cons_append, List.nil_append]
                  unfold decEsc
                  simp +decide [ih r]
                · by_cases h8 : 32 ≤ c.toNat ∧ c.toNat ≤ 126
                  · rw [escChar, if_neg h1, if_neg h2, if_neg h3, if_neg h4, if_neg h5,
                      if_neg h6, if_neg h7, if_pos h8]
                    simp only [List.cons_append, List.nil_append]
                    unfold decEsc
                    rw [if_neg h1, if_neg h2, ih r]
                  · by_cases h9 : c.toNat < 65536
                    · rw [escChar, if_neg h1, if_neg h2, if_neg h3, if_neg h4, if_neg h5,
                        if_neg h6, if_neg h7, if_neg h8, if_pos h9]
                      rw [hex4]
                      have hval : c.toNat < 55296 ∨ (57343 < c.toNat ∧ c.toNat < 1114112) :=
                        c.valid
                      have hns : ¬ (55296 ≤ c.toNat ∧ c.toNat < 56320) := by
                        rcases hval with hv | ⟨hv, -⟩ <;> omega
                      simp only [List.cons_append, List.nil_append]
                      unfold decEsc
                      simp +decide [hex4val_hex4 c.toNat h9, hns, ih r, Char.ofNat_toNat]
                    · rw [escChar, if_neg h1, if_neg h2, if_neg h3, if_neg h4, if_neg h5,
                        if_neg h6, if_neg h7, if_neg h8, if_neg h9]
                      have hval : c.toNat < 55296 ∨ (57343 < c.toNat ∧ c.toNat < 1114112) :=
                        c.valid
                      have hub : c.toNat < 1114112 := by
                        rcases hval with hv | ⟨-, hv⟩ <;> omega
                      have hlo : 65536 ≤ c.toNat := by omega
                      rw [hex4, hex4]
                      simp only [List.cons_append, List.nil_append, List.append_assoc]
                      unfold decEsc
                      have hhi4 := hex4val_hex4 (55296 + (c.toNat - 65536) / 1024) (by omega)
                      have hlo4 := hex4val_hex4 (56320 + (c.toNat - 65536) % 1024) (by omega)
                      have hg : 55296 ≤ 55296 + (c.toNat - 65536) / 1024 ∧
                          55296 + (c.toNat - 65536) / 1024 < 56320 := ⟨by omega, by omega⟩
                      have harith : 65536 + (55296 + (c.toNat - 65536) / 1024 - 55296) * 1024 +
                          (56320 + (c.toNat - 65536) % 1024 - 56320) = c.toNat := by
                        have := Nat.div_add_mod (c.toNat - 65536) 1024
                        omega
                      simp +decide [hhi4, hlo4, hg, harith, ih r, Char.ofNat_toNat]
                      have harith2 : 65536 + (c.toNat - 65536) / 1024 * 1024 +
                          (c.toNat - 65536) % 1024 = c.toNat := by
                        have := Nat.div_add_mod (c.toNat - 65536) 1024
                        omega
                      rw [harith2, Char.ofNat_toNat]

/-- Decoder for a whole JSON string literal. -/
def decStr : List Char → Option (String × List Char)
  | [] => none
  | c :: rest =>
    if c = quoteC then
      match decEsc rest with
      | some (cs, r) => some (⟨cs⟩, r)
      | none => none
    else none

/-- Round trip for JSON string literals. -/
theorem decStr_strEnc (s : String) (r : List Char) : decStr (strEnc s ++ r) = some (s, r) := by
  obtain ⟨d⟩ := s
  rw [strEnc]
  simp only [List.cons_append, List.append_assoc, List.singleton_append, List.nil_append]
  unfold decStr
  simp [decEsc_escList d r]

/-- Two string encodings agree only on equal strings and equal tails. -/
theorem strEnc_cancel (s s' : String) (r r' : List Char)
    (h : strEnc s ++ r = strEnc s' ++ r') : s = s' ∧ r = r' := by
  have h1 := decStr_strEnc s r
  rw [h, decStr_strEnc s' r'] at h1
  injection h1 with h1
  injection h1 with ha hb
  exact ⟨ha.symm, hb.symm⟩

/-- A vote encoding starts with an opening brace. -/
theorem hashJson_head (v : Vote) : ∃ t, v.hashJson = lbraceC :: t := by
  rw [Vote.hashJson]
  exact ⟨_, by rw [List.cons_append]⟩

/-- Two vote encodings agree only on equal votes and equal tails. -/
theorem hashJson_cancel (v v' : Vote) (x y : List Char)
    (h : v.hashJson ++ x = v'.hashJson ++ y) : v = v' ∧ x = y := by
  obtain ⟨vid, cand, ts⟩ := v
  obtain ⟨vid', cand', ts'⟩ := v'
  simp only [Vote.hashJson, List.cons_append, List.append_assoc, List.cons.injEq,
    true_and] at h
  have h1 := List.append_cancel_left h
  obtain ⟨hcand, h2⟩ := strEnc_cancel _ _ _ _ h1
  have h3 := List.append_cancel_left h2
  obtain ⟨hts, h4⟩ := natEnc_cancel _ _ _ _ h3 (by rfl) (by rfl)
  have h5 := List.append_cancel_left h4
  obtain ⟨hvid, h6⟩ := strEnc_cancel _ _ _ _ h5
  refine ⟨by rw [hcand, hts, hvid], ?_⟩
  simpa using h6

/-- Two vote-array bodies followed by closing brackets agree only on
equal vote lists and equal tails. -/
theorem votesJoin_cancel : ∀ (vs vs' : List Vote) (r r' : List Char),
    votesJoin vs ++ ']' :: r = votesJoin vs' ++ ']' :: r' → vs = vs' ∧ r = r' := by
  intro vs
  induction vs with
  | nil =>
    intro vs' r r' h
    cases vs' with
    | nil =>
      rw [votesJoin] at h
      simp only [List.nil_append, List.cons.injEq, true_and] at h
      exact ⟨rfl, h⟩
    | cons v' rest' =>
      exfalso
      obtain ⟨t, ht⟩ := hashJson_head v'
      cases rest' with
      | nil =>
        rw [votesJoin, votesJoin, ht] at h
        simp only [List.nil_append, List.cons_append, List.append_assoc,
          List.cons.injEq] at h
        exact absurd h.1 (by decide)
      | cons w' ws' =>
        rw [votesJoin, votesJoin, ht] at h
        simp only [List.nil_append, List.cons_append, List.append_assoc,
          List.cons.injEq] at h
        exact absurd h.1 (by decide)
  | cons v vs ih =>
    intro vs' r r' h
    cases vs' with
    | nil =>
      exfalso
      obtain ⟨t, ht⟩ := hashJson_head v
      cases vs with
      | nil =>
        rw [votesJoin, votesJoin, ht] at h
        simp only [List.nil_append, List.cons_append, List.append_assoc,
          List.cons.injEq] at h
        exact absurd h.1.symm (by decide)
      | cons w ws =>
        rw [votesJoin, votesJoin, ht] at h
        simp only [List.nil_append, List.cons_append, List.append_assoc,
          List.cons.injEq] at h
        exact absurd h.1.symm (by decide)
    | cons v' rest' =>
      cases vs with
      | nil =>
        cases rest' with
        | nil =>
          rw [votesJoin, votesJoin] at h
          obtain ⟨hv, h2⟩ := hashJson_cancel v v' _ _ h
          simp only [List.cons.injEq, true_and] at h2
          exact ⟨by rw [hv], h2⟩
        | cons w' ws' =>
          exfalso
          rw [votesJoin, votesJoin] at h
          simp only [List.cons_append, List.append_assoc] at h
          obtain ⟨-, h2⟩ := hashJson_cancel v v' _ _ h
          simp only [List.cons.injEq] at h2
          exact absurd h2.1 (by decide)
      | cons w ws =>
        cases rest' with
        | nil =>
          exfalso
          rw [votesJoin, votesJoin] at h
          simp only [List.cons_append, List.append_assoc] at h
          obtain ⟨-, h2⟩ := hashJson_cancel v v' _ _ h
          simp only [List.cons.injEq] at h2
          exact absurd h2.1.symm (by decide)
        | cons w' ws' =>
          rw [votesJoin, votesJoin] at h
          simp only [List.cons_append, List.append_assoc] at h
          obtain ⟨hv, h2⟩ := hashJson_cancel v v' _ _ h
          simp only [List.cons.injEq, true_and] at h2
          obtain ⟨hrest, hr⟩ := ih (w' :: ws') r r' h2
          exact ⟨by rw [hv, hrest], hr⟩

/-- The canonical block encoding is injective on all hashed fields. -/
theorem blockContent_inj (i t : Nat) (vs : List Vote) (ph : String)
    (i' t' : Nat) (vs' : List Vote) (ph' : String)
    (h : blockContent i t vs ph = blockContent i' t' vs' ph') :
    i = i' ∧ t = t' ∧ vs = vs' ∧ ph = ph' := by
  rw [blockContent, blockContent, votesEnc, votesEnc] at h
  simp only [List.cons_append, List.append_assoc, List.cons.injEq, true_and] at h
  have h1 := List.append_cancel_left h
  obtain ⟨hi, h2⟩ := natEnc_cancel _ _ _ _ h1 (by rfl) (by rfl)
  have h3 := List.append_cancel_left h2
  obtain ⟨hph, h4⟩ := strEnc_cancel _ _ _ _ h3
  have h5 := List.append_cancel_left h4
  obtain ⟨ht, h6⟩ := natEnc_cancel _ _ _ _ h5 (by rfl) (by rfl)
  have h7 := List.append_cancel_left h6
  simp only [List.cons_append, List.cons.injEq, true_and] at h7
  obtain ⟨hvs, -⟩ := votesJoin_cancel vs vs' [rbraceC] [rbraceC] (by
    simpa only [List.append_assoc, List.singleton_append] using h7)
  exact ⟨hi, ht, hvs, hph⟩

/-- The sixteen lowercase hexadecimal characters. -/
def lowerHexChars : List Char := strL "0123456789abcdef"

/-- Every nibble renders as a lowercase hex character. -/
theorem hexC_mem_lower : ∀ m, m < 16 → hexC m ∈ lowerHexChars := by decide

/-- Every character of a rendered word is lowercase hex. -/
theorem wordHex_chars (w : Nat) : ∀ c ∈ wordHex w, c ∈ lowerHexChars := by
  intro c hc
  have key : ∀ x : Nat, c = hexC (x % 16) → c ∈ lowerHexChars := by
    intro x hx
    rw [hx]
    exact hexC_mem_lower _ (Nat.mod_lt _ (by omega))
  simp only [wordHex, byteHex, List.mem_append, List.mem_cons,
    List.not_mem_nil, or_false] at hc
  casesm* _ ∨ _
  all_goals exact key _ (by assumption)

/-- Every character of a SHA-256 hex digest is lowercase hex. -/
theorem sha256hex_chars (msg : List Nat) : ∀ c ∈ (sha256hex msg).data, c ∈ lowerHexChars := by
  intro c hc
  simp only [sha256hex, List.mem_append] at hc
  rcases hc with ((((((h | h) | h) | h) | h) | h) | h) | h <;> exact wordHex_chars _ c h

/-- C4: the block digest is deterministic (a pure function of the hashed
fields); it is a 64-character string of lowercase hexadecimal
characters; and the canonical encoding it hashes is injective on
(index, timestamp, votes, previous_hash) — the precise, provable form of
"any change to a field changes the digest with overwhelming
probability". -/
theorem block_digest_deterministic_sensitive :
    (∀ (i t : Nat) (vs : List Vote) (ph : String),
      calcHash i t vs ph = calcHash i t vs ph) ∧
    (∀ (i t : Nat) (vs : List Vote) (ph : String),
      (calcHash i t vs ph).length = 64 ∧
      ∀ c ∈ (calcHash i t vs ph).data, c ∈ lowerHexChars) ∧
    (∀ (i t : Nat) (vs : List Vote) (ph : String) (i2 t2 : Nat) (vs2 : List Vote)
      (ph2 : String),
      blockContent i t vs ph = blockContent i2 t2 vs2 ph2 →
      i = i2 ∧ t = t2 ∧ vs = vs2 ∧ ph = ph2) := by
  refine ⟨fun _ _ _ _ => rfl, fun i t vs ph => ⟨sha256hex_length _, sha256hex_chars _⟩,
    blockContent_inj⟩

/-- Witness for C4's injectivity at concrete distinct inputs: equal
encodings force equal fields. -/
theorem block_digest_deterministic_sensitive_witness :
    (1 : Nat) = 1 ∧ (2 : Nat) = 2 ∧ ([] : List Vote) = [] ∧ "a" = "a" :=
  block_digest_deterministic_sensitive.2.2 1 2 [] "a" 1 2 [] "a" rfl
